import Mathlib

/-!
Verification of `check_images.py` (jangop/stylegan2).

Shallow embedding: the `Overseer` scan is modelled as a pure fold over the
directory listing.  Each file's observable behaviour (whether the structural
open/verify succeeds, its reported mode and dimensions, the outcome of the
hash-stage load and of the entropy-stage load) is an input recorded in
`FileInfo`.  Python dicts (insertion ordered) are modelled as association
lists; the `Offense` `Flag` values are modelled as `OffenseSet`, a record of
five booleans whose `|` is pointwise `or`.  Perceptual hashes (`imagehash`
values, boolean bit arrays whose subtraction counts differing bits) are
modelled as `List Bool`.

The soft-merge pass needs care: `soft_hashes[hash_value] = filenames`
(line 122) stores the very list object held by `self.hashes`, so the
in-place `+=` of line 118 extends the representative's bucket inside
`self.hashes` as well.  `softLoop` embeds the loop with this aliasing made
explicit (every mutation is written to both structures), and the
characterization theorems below recover the resulting bucket contents.
-/

namespace CheckImages

/-- A value of the Python `Offense` `Flag` enum: a set of the five base
offenses, closed under `|` (union). -/
structure OffenseSet where
  corrupt : Bool
  mode : Bool
  duplicate : Bool
  size : Bool
  entropy : Bool
deriving DecidableEq, Repr

/-- Python `Flag.__or__`: pointwise union. -/
def OffenseSet.union (a b : OffenseSet) : OffenseSet :=
  ⟨a.corrupt || b.corrupt, a.mode || b.mode, a.duplicate || b.duplicate,
   a.size || b.size, a.entropy || b.entropy⟩

/-- The empty offense set (no flags). -/
def OffenseSet.empty : OffenseSet := ⟨false, false, false, false, false⟩

namespace Offense

/-- `Offense.CORRUPT` as a flag value. -/
def CORRUPT : OffenseSet := ⟨true, false, false, false, false⟩

/-- `Offense.MODE` as a flag value. -/
def MODE : OffenseSet := ⟨false, true, false, false, false⟩

/-- `Offense.DUPLICATE` as a flag value. -/
def DUPLICATE : OffenseSet := ⟨false, false, true, false, false⟩

/-- `Offense.SIZE` as a flag value. -/
def SIZE : OffenseSet := ⟨false, false, false, true, false⟩

/-- `Offense.ENTROPY` as a flag value. -/
def ENTROPY : OffenseSet := ⟨false, false, false, false, true⟩

end Offense

/-- An `imagehash` value: a boolean bit array. -/
abbrev HashVal := List Bool

/-- `ImageHash.__sub__`: the number of positions where the two bit arrays
differ. -/
def hashDist : HashVal → HashVal → Nat
  | b :: bs, c :: cs => (if b = c then 0 else 1) + hashDist bs cs
  | _, _ => 0

/-- The observable behaviour of one file of the scanned directory: its name,
whether `Image.open`/`image.verify` succeeds, the mode and dimensions the
opened image reports, the hash produced by the hash-stage
reopen/load/crop/hash (`none` when that load raises `OSError`) and the
entropy score produced by the entropy-stage reopen/load
(`none` when that load raises `OSError`). -/
structure FileInfo where
  name : String
  verifyOk : Bool
  mode : String
  width : Nat
  height : Nat
  hashLoad : Option HashVal
  entropyLoad : Option ℚ
deriving DecidableEq, Repr

/-- The `Overseer` configuration fields the scan reads. -/
structure Config where
  mode : String
  sideLength : Nat
  entropyThreshold : ℚ
  checkEntropy : Bool
  checkHash : Bool
  hashName : String
  softHash : Bool
  softHashThreshold : Nat
deriving DecidableEq, Repr

/-- Insertion-ordered dict update, as in `_add_offense`: if the key is
present its value becomes the union with `o`, otherwise a new entry is
appended. -/
def updOff : List (String × OffenseSet) → String → OffenseSet →
    List (String × OffenseSet)
  | [], n, o => [(n, o)]
  | (m, s) :: rest, n, o =>
    if m = n then (m, s.union o) :: rest else (m, s) :: updOff rest n o

/-- Dict lookup on the offenses mapping. -/
def findOff : List (String × OffenseSet) → String → Option OffenseSet
  | [], _ => none
  | (m, s) :: rest, n => if m = n then some s else findOff rest n

/-- Insertion-ordered dict assignment `self.entropies[filename] = entropy`. -/
def setEnt : List (String × ℚ) → String → ℚ → List (String × ℚ)
  | [], n, e => [(n, e)]
  | (m, x) :: rest, n, e =>
    if m = n then (m, e) :: rest else (m, x) :: setEnt rest n e

/-- Dict lookup on the entropies mapping. -/
def findEnt : List (String × ℚ) → String → Option ℚ
  | [], _ => none
  | (m, x) :: rest, n => if m = n then some x else findEnt rest n

/-- `self.hashes[crop_hash] = self.hashes.get(crop_hash, []) + [filename]`:
an existing bucket keeps its position and gains the filename at the end, a
new bucket is appended. -/
def bucketAdd : List (HashVal × List String) → HashVal → String →
    List (HashVal × List String)
  | [], h, n => [(h, [n])]
  | (k, fs) :: rest, h, n =>
    if k = h then (k, fs ++ [n]) :: rest else (k, fs) :: bucketAdd rest h n

/-- All filenames stored in the hash buckets, in bucket-then-member order. -/
def allMembers : List (HashVal × List String) → List String
  | [] => []
  | (_, fs) :: rest => fs ++ allMembers rest

/-- The mutable `Overseer` state that `inspect` builds. `uHashes` models
the attribute `self._hashes` assigned at line 123: it receives the
`soft_hashes` dict, whose lists alias the representative buckets of
`self.hashes`, and is never read afterwards. -/
structure ScanState where
  offenses : List (String × OffenseSet)
  hashes : List (HashVal × List String)
  entropies : List (String × ℚ)
  nFilesInspected : Nat
  uHashes : Option (List (HashVal × List String))
deriving DecidableEq, Repr

/-- The state a fresh `Overseer` starts from. -/
def initState : ScanState := ⟨[], [], [], 0, none⟩

/-- `Overseer._add_offense`. -/
def addOffense (st : ScanState) (n : String) (o : OffenseSet) : ScanState :=
  { st with offenses := updOff st.offenses n o }

/-- The body of the `inspect` per-file loop (lines 57-108): count the file,
short-circuit on verify failure, wrong mode and wrong size, then run the
optional hash and entropy stages, each of which can mark CORRUPT on a
load failure. -/
def inspectFile (cfg : Config) (st : ScanState) (f : FileInfo) : ScanState :=
  let st := { st with nFilesInspected := st.nFilesInspected + 1 }
  if f.verifyOk = false then
    addOffense st f.name Offense.CORRUPT
  else if f.mode ≠ cfg.mode then
    addOffense st f.name Offense.MODE
  else if f.width ≠ cfg.sideLength ∨ f.height ≠ cfg.sideLength ∨
      f.width ≠ f.height then
    addOffense st f.name Offense.SIZE
  else
    let st :=
      if cfg.checkHash then
        if cfg.hashName = "dhash" then
          match f.hashLoad with
          | some h => { st with hashes := bucketAdd st.hashes h f.name }
          | none => addOffense st f.name Offense.CORRUPT
        else st
      else st
    if cfg.checkEntropy then
      match f.entropyLoad with
      | some e =>
        let st := { st with entropies := setEnt st.entropies f.name e }
        if e < cfg.entropyThreshold then
          addOffense st f.name Offense.ENTROPY
        else st
      | none => addOffense st f.name Offense.CORRUPT
    else st

/-- The per-file loop of `inspect` over the directory listing. -/
def foldInspect (cfg : Config) (st : ScanState) (files : List FileInfo) :
    ScanState :=
  files.foldl (inspectFile cfg) st

/-- One step of the soft-merge rule of lines 114-122, acting on the
`soft_hashes` contents: scan the accumulated soft clusters in order and
merge the incoming bucket into the first one whose representative hash is
at distance strictly below the threshold; append a new cluster keyed by
the incoming hash when none matches. -/
def softStep (thr : Nat) : List (HashVal × List String) → HashVal →
    List String → List (HashVal × List String)
  | [], h, fs => [(h, fs)]
  | (k, sfs) :: rest, h, fs =>
    if hashDist k h < thr then (k, sfs ++ fs) :: rest
    else (k, sfs) :: softStep thr rest h fs

/-- The value-level content of `soft_hashes` after lines 111-122: the
exact buckets folded in their current order into soft clusters by the
first-match rule.  (`softLoop` below is the transcription of the loop with
its aliasing; `softLoop_spec` proves its `soft_hashes` component equals
this fold.) -/
def softMerge (thr : Nat) (buckets : List (HashVal × List String)) :
    List (HashVal × List String) :=
  buckets.foldl (fun acc p => softStep thr acc p.1 p.2) []

/-- Dict read `self.hashes[h]` at its current (possibly already mutated)
value. -/
def bucketGet : List (HashVal × List String) → HashVal → List String
  | [], _ => []
  | (k, fs) :: rest, h => if k = h then fs else bucketGet rest h

/-- In-place `+=` on the list stored under a key: the first entry holding
the key is extended at its position; a missing key changes nothing. -/
def bucketExtend : List (HashVal × List String) → HashVal → List String →
    List (HashVal × List String)
  | [], _, _ => []
  | (k, fs) :: rest, h, newfs =>
    if k = h then (k, fs ++ newfs) :: rest
    else (k, fs) :: bucketExtend rest h newfs

/-- The representative search of lines 115-120: the key of the first soft
cluster whose representative hash is at distance strictly below the
threshold (`break` after the first match). -/
def findRep (thr : Nat) : List (HashVal × List String) → HashVal →
    Option HashVal
  | [], _ => none
  | (r, _) :: rest, h =>
    if hashDist r h < thr then some r else findRep thr rest h

/-- The soft-merge loop of lines 111-122 with Python's aliasing explicit:
`soft_hashes[hash_value] = filenames` (line 122) stores the very list
object held by `self.hashes`, so `soft_hashes[soft_hash_value] +=
filenames` (line 118) extends both the soft cluster and the
representative's bucket in `self.hashes`.  The loop walks the bucket keys
in order, reads the current value of each bucket, and on a merge writes
the extension to both structures; the result is (`self.hashes` after the
loop, `soft_hashes`). -/
def softLoop (thr : Nat) : List HashVal →
    List (HashVal × List String) → List (HashVal × List String) →
    List (HashVal × List String) × List (HashVal × List String)
  | [], buckets, clusters => (buckets, clusters)
  | h :: hs, buckets, clusters =>
    let fs := bucketGet buckets h
    match findRep thr clusters h with
    | some r =>
      softLoop thr hs (bucketExtend buckets r fs)
        (bucketExtend clusters r fs)
    | none => softLoop thr hs buckets (clusters ++ [(h, fs)])

/-- The duplicate-marking loop (lines 125-132): for every bucket of
`self.hashes` with more than one member, every member after the first gets
DUPLICATE. -/
def assignDuplicates (st : ScanState) : ScanState :=
  st.hashes.foldl
    (fun s p =>
      if p.2.length > 1 then
        (p.2.drop 1).foldl (fun t n => addOffense t n Offense.DUPLICATE) s
      else s)
    st

/-- `Overseer.inspect`: the per-file loop, then (when soft mode is on) the
soft-merge loop — which, through the list aliasing, extends the
representative buckets of `self.hashes` in place and finally stores
`soft_hashes` into the otherwise unread attribute `self._hashes` — then
duplicate marking over `self.hashes`. -/
def inspect (cfg : Config) (files : List FileInfo) : ScanState :=
  let st := foldInspect cfg initState files
  let st :=
    if cfg.softHash then
      let pr := softLoop cfg.softHashThreshold (st.hashes.map Prod.fst)
        st.hashes []
      { st with hashes := pr.1, uHashes := some pr.2 }
    else st
  assignDuplicates st

/-- The offending-file percentage computed by `Overseer.log` line 138:
`len(self.offenses) / self.n_files_inspected * 100`, which raises
`ZeroDivisionError` when no file was inspected; the failure is modelled as
`none`. -/
def logPercent (st : ScanState) : Option ℚ :=
  let nOffending := st.offenses.length
  if st.nFilesInspected = 0 then none
  else some ((nOffending : ℚ) / (st.nFilesInspected : ℚ) * 100)

/-- `Overseer.sweep`: the sequence of filenames the configured action is
invoked on — one iteration per key of the offenses dict. -/
def sweep (st : ScanState) : List String :=
  st.offenses.map (fun p => p.1)

/-! ### Offense-set algebra -/

theorem OffenseSet.union_self_right (s o : OffenseSet) :
    (s.union o).union o = s.union o := by
  cases s; cases o
  simp [OffenseSet.union, Bool.or_assoc]

theorem OffenseSet.union_empty_left (o : OffenseSet) :
    OffenseSet.empty.union o = o := by
  cases o; simp [OffenseSet.union, OffenseSet.empty]

/-! ### Lookup/update lemmas for the offenses dict -/

theorem findOff_updOff_self (l : List (String × OffenseSet)) (n : String)
    (o : OffenseSet) :
    findOff (updOff l n o) n =
      some (((findOff l n).getD OffenseSet.empty).union o) := by
  induction l with
  | nil => simp [updOff, findOff, OffenseSet.union_empty_left]
  | cons p rest ih =>
    obtain ⟨m, s⟩ := p
    by_cases hm : m = n
    · subst hm
      simp [updOff, findOff]
    · simp [updOff, findOff, hm, ih]

theorem findOff_updOff_ne (l : List (String × OffenseSet)) (n m : String)
    (o : OffenseSet) (h : m ≠ n) :
    findOff (updOff l n o) m = findOff l m := by
  induction l with
  | nil => simp [updOff, findOff, Ne.symm h]
  | cons p rest ih =>
    obtain ⟨k, s⟩ := p
    by_cases hk : k = n
    · subst hk
      simp [updOff, findOff, Ne.symm h]
    · by_cases hkm : k = m
      · subst hkm
        simp [updOff, findOff, hk]
      · simp [updOff, findOff, hk, hkm, ih]

theorem findOff_eq_none (l : List (String × OffenseSet)) (n : String) :
    findOff l n = none ↔ n ∉ l.map Prod.fst := by
  induction l with
  | nil => simp [findOff]
  | cons p rest ih =>
    obtain ⟨m, s⟩ := p
    by_cases hm : m = n
    · subst hm
      simp [findOff]
    · simp [findOff, hm, ih, Ne.symm hm]

theorem keys_updOff (l : List (String × OffenseSet)) (n : String)
    (o : OffenseSet) :
    (updOff l n o).map Prod.fst =
      if n ∈ l.map Prod.fst then l.map Prod.fst
      else l.map Prod.fst ++ [n] := by
  induction l with
  | nil => simp [updOff]
  | cons p rest ih =>
    obtain ⟨m, s⟩ := p
    by_cases hm : m = n
    · subst hm
      simp [updOff]
    · simp only [updOff, if_neg hm, List.map_cons, List.mem_cons]
      rw [ih]
      by_cases hn : n ∈ rest.map Prod.fst
      · simp [hn, Ne.symm hm]
      · simp [hn, Ne.symm hm]

theorem keys_updOff_nodup (l : List (String × OffenseSet)) (n : String)
    (o : OffenseSet) (h : (l.map Prod.fst).Nodup) :
    ((updOff l n o).map Prod.fst).Nodup := by
  rw [keys_updOff]
  by_cases hn : n ∈ l.map Prod.fst
  · simpa [hn]
  · simpa [hn, List.nodup_append] using h

/-! ### Lookup/update lemmas for the entropies dict -/

theorem findEnt_setEnt_self (l : List (String × ℚ)) (n : String) (e : ℚ) :
    findEnt (setEnt l n e) n = some e := by
  induction l with
  | nil => simp [setEnt, findEnt]
  | cons p rest ih =>
    obtain ⟨m, x⟩ := p
    by_cases hm : m = n
    · subst hm
      simp [setEnt, findEnt]
    · simp [setEnt, findEnt, hm, ih]

theorem findEnt_setEnt_ne (l : List (String × ℚ)) (n m : String) (e : ℚ)
    (h : m ≠ n) :
    findEnt (setEnt l n e) m = findEnt l m := by
  induction l with
  | nil => simp [setEnt, findEnt, Ne.symm h]
  | cons p rest ih =>
    obtain ⟨k, x⟩ := p
    by_cases hk : k = n
    · subst hk
      simp [setEnt, findEnt, Ne.symm h]
    · by_cases hkm : k = m
      · subst hkm
        simp [setEnt, findEnt, hk]
      · simp [setEnt, findEnt, hk, hkm, ih]

/-! ### Counting filenames in the hash buckets -/

/-- Occurrence count of a name in a list of names. -/
def countName (n : String) : List String → Nat
  | [] => 0
  | m :: rest => (if m = n then 1 else 0) + countName n rest

theorem countName_append (n : String) (l₁ l₂ : List String) :
    countName n (l₁ ++ l₂) = countName n l₁ + countName n l₂ := by
  induction l₁ with
  | nil => simp [countName]
  | cons m rest ih => simp [countName, ih, Nat.add_assoc]

theorem countName_eq_zero (n : String) (l : List String) :
    countName n l = 0 ↔ n ∉ l := by
  induction l with
  | nil => simp [countName]
  | cons m rest ih =>
    by_cases hm : m = n
    · subst hm
      simp [countName]
    · simp [countName, hm, ih, Ne.symm hm]

theorem countName_pos (n : String) (l : List String) :
    0 < countName n l ↔ n ∈ l := by
  rw [Nat.pos_iff_ne_zero, Ne, countName_eq_zero]
  simp

theorem countName_nodup (l : List String) (h : l.Nodup) (n : String) :
    countName n l ≤ 1 := by
  induction l with
  | nil => simp [countName]
  | cons m rest ih =>
    rw [List.nodup_cons] at h
    by_cases hm : m = n
    · subst hm
      have h0 : countName m rest = 0 := (countName_eq_zero m rest).mpr h.1
      simp [countName, h0]
    · simpa [countName, hm] using ih h.2

theorem nodup_of_countName (l : List String)
    (h : ∀ n, countName n l ≤ 1) : l.Nodup := by
  induction l with
  | nil => simp
  | cons m rest ih =>
    rw [List.nodup_cons]
    constructor
    · have hm := h m
      simp [countName] at hm
      have : countName m rest = 0 := by omega
      exact (countName_eq_zero m rest).mp this
    · refine ih fun n => ?_
      have hn := h n
      simp only [countName] at hn
      omega

/-! ### Per-file characterization of one loop iteration

`inspectFile` is the transcription of the loop body; the following derived
functions state, per file, which offenses, entropy entry and hash-bucket
contribution that iteration produces.  They are proven equal to the effect
of `inspectFile` below. -/

/-- The offense contribution of the hash stage: CORRUPT exactly when the
stage is enabled, the `dhash` branch is taken and the load fails. -/
def hashOff (cfg : Config) (f : FileInfo) : OffenseSet :=
  if cfg.checkHash = true ∧ cfg.hashName = "dhash" ∧ f.hashLoad = none then
    Offense.CORRUPT
  else OffenseSet.empty

/-- The offense contribution of the entropy stage: CORRUPT when the load
fails, ENTROPY when the score is strictly below the threshold. -/
def entOff (cfg : Config) (f : FileInfo) : OffenseSet :=
  if cfg.checkEntropy = true then
    match f.entropyLoad with
    | some e =>
      if e < cfg.entropyThreshold then Offense.ENTROPY else OffenseSet.empty
    | none => Offense.CORRUPT
  else OffenseSet.empty

/-- The offense entry one loop iteration leaves for its file (when the file
had no entry before): the three short-circuit offenses, or the union of the
hash-stage and entropy-stage contributions, or no entry at all. -/
def fileOff (cfg : Config) (f : FileInfo) : Option OffenseSet :=
  if f.verifyOk = false then some Offense.CORRUPT
  else if f.mode ≠ cfg.mode then some Offense.MODE
  else if f.width ≠ cfg.sideLength ∨ f.height ≠ cfg.sideLength ∨
      f.width ≠ f.height then some Offense.SIZE
  else if (hashOff cfg f).union (entOff cfg f) = OffenseSet.empty then none
  else some ((hashOff cfg f).union (entOff cfg f))

/-- The entropy entry one loop iteration records for its file. -/
def fileEnt (cfg : Config) (f : FileInfo) : Option ℚ :=
  if f.verifyOk = true ∧ f.mode = cfg.mode ∧
      ¬(f.width ≠ cfg.sideLength ∨ f.height ≠ cfg.sideLength ∨
        f.width ≠ f.height) ∧ cfg.checkEntropy = true then
    f.entropyLoad
  else none

/-- Whether one loop iteration adds its file to a hash bucket. -/
def passesToHash (cfg : Config) (f : FileInfo) : Prop :=
  f.verifyOk = true ∧ f.mode = cfg.mode ∧
    ¬(f.width ≠ cfg.sideLength ∨ f.height ≠ cfg.sideLength ∨
      f.width ≠ f.height) ∧
    cfg.checkHash = true ∧ cfg.hashName = "dhash" ∧ f.hashLoad ≠ none

instance (cfg : Config) (f : FileInfo) : Decidable (passesToHash cfg f) := by
  unfold passesToHash
  infer_instance

theorem countName_bucketAdd (bs : List (HashVal × List String))
    (h : HashVal) (m n : String) :
    countName n (allMembers (bucketAdd bs h m)) =
      countName n (allMembers bs) + (if m = n then 1 else 0) := by
  induction bs with
  | nil => simp [bucketAdd, allMembers, countName]
  | cons p rest ih =>
    obtain ⟨k, fs⟩ := p
    by_cases hk : k = h
    · subst hk
      simp [bucketAdd, allMembers, countName_append, countName]
      omega
    · simp [bucketAdd, allMembers, hk, countName_append, ih]
      omega

/-! ### Effect of one loop iteration on the state -/

theorem findOff_inspectFile_self (cfg : Config) (st : ScanState)
    (f : FileInfo) (h0 : findOff st.offenses f.name = none) :
    findOff (inspectFile cfg st f).offenses f.name = fileOff cfg f := by
  unfold inspectFile fileOff hashOff entOff addOffense
  by_cases hv : f.verifyOk = false
  · simp [hv, findOff_updOff_self, h0, OffenseSet.union_empty_left]
  · by_cases hm : f.mode = cfg.mode
    · by_cases hs : f.width ≠ cfg.sideLength ∨ f.height ≠ cfg.sideLength ∨
          f.width ≠ f.height
      · simp [hv, hm, hs, findOff_updOff_self, h0,
          OffenseSet.union_empty_left]
      · by_cases hch : cfg.checkHash = true
        · by_cases hhn : cfg.hashName = "dhash"
          · cases hHL : f.hashLoad with
            | some hval =>
              by_cases hce : cfg.checkEntropy = true
              · cases hEL : f.entropyLoad with
                | some e =>
                  by_cases hlt : e < cfg.entropyThreshold
                  · simp [hv, hm, hs, hch, hhn, hHL, hce, hEL, hlt,
                      findOff_updOff_self, h0, OffenseSet.union_empty_left,
                      OffenseSet.union, OffenseSet.empty, Offense.ENTROPY]
                  · simp [hv, hm, hs, hch, hhn, hHL, hce, hEL, hlt, h0,
                      OffenseSet.union, OffenseSet.empty]
                | none =>
                  simp [hv, hm, hs, hch, hhn, hHL, hce, hEL,
                    findOff_updOff_self, h0, OffenseSet.union_empty_left,
                    OffenseSet.union, OffenseSet.empty, Offense.CORRUPT]
              · simp [hv, hm, hs, hch, hhn, hHL, hce, h0,
                  OffenseSet.union, OffenseSet.empty]
            | none =>
              by_cases hce : cfg.checkEntropy = true
              · cases hEL : f.entropyLoad with
                | some e =>
                  by_cases hlt : e < cfg.entropyThreshold
                  · simp [hv, hm, hs, hch, hhn, hHL, hce, hEL, hlt,
                      findOff_updOff_self, h0, OffenseSet.union_empty_left,
                      OffenseSet.union, OffenseSet.empty, Offense.CORRUPT,
                      Offense.ENTROPY]
                  · simp [hv, hm, hs, hch, hhn, hHL, hce, hEL, hlt,
                      findOff_updOff_self, h0, OffenseSet.union_empty_left,
                      OffenseSet.union, OffenseSet.empty, Offense.CORRUPT]
                | none =>
                  simp [hv, hm, hs, hch, hhn, hHL, hce, hEL,
                    findOff_updOff_self, h0, OffenseSet.union_empty_left,
                    OffenseSet.union, OffenseSet.empty, Offense.CORRUPT]
              · simp [hv, hm, hs, hch, hhn, hHL, hce,
                  findOff_updOff_self, h0, OffenseSet.union_empty_left,
                  OffenseSet.union, OffenseSet.empty, Offense.CORRUPT]
          · by_cases hce : cfg.checkEntropy = true
            · cases hEL : f.entropyLoad with
              | some e =>
                by_cases hlt : e < cfg.entropyThreshold
                · simp [hv, hm, hs, hch, hhn, hce, hEL, hlt,
                    findOff_updOff_self, h0, OffenseSet.union_empty_left,
                    OffenseSet.union, OffenseSet.empty, Offense.ENTROPY]
                · simp [hv, hm, hs, hch, hhn, hce, hEL, hlt, h0,
                    OffenseSet.union, OffenseSet.empty]
              | none =>
                simp [hv, hm, hs, hch, hhn, hce, hEL,
                  findOff_updOff_self, h0, OffenseSet.union_empty_left,
                  OffenseSet.union, OffenseSet.empty, Offense.CORRUPT]
            · simp [hv, hm, hs, hch, hhn, hce, h0,
                OffenseSet.union, OffenseSet.empty]
        · by_cases hce : cfg.checkEntropy = true
          · cases hEL : f.entropyLoad with
            | some e =>
              by_cases hlt : e < cfg.entropyThreshold
              · simp [hv, hm, hs, hch, hce, hEL, hlt,
                  findOff_updOff_self, h0, OffenseSet.union_empty_left,
                  OffenseSet.union, OffenseSet.empty, Offense.ENTROPY]
              · simp [hv, hm, hs, hch, hce, hEL, hlt, h0,
                  OffenseSet.union, OffenseSet.empty]
            | none =>
              simp [hv, hm, hs, hch, hce, hEL,
                findOff_updOff_self, h0, OffenseSet.union_empty_left,
                OffenseSet.union, OffenseSet.empty, Offense.CORRUPT]
          · simp [hv, hm, hs, hch, hce, h0,
              OffenseSet.union, OffenseSet.empty]
    · simp [hv, hm, findOff_updOff_self, h0, OffenseSet.union_empty_left]

theorem findOff_inspectFile_ne (cfg : Config) (st : ScanState)
    (f : FileInfo) (m : String) (h : m ≠ f.name) :
    findOff (inspectFile cfg st f).offenses m = findOff st.offenses m := by
  unfold inspectFile addOffense
  repeat' split
  all_goals simp [findOff_updOff_ne _ _ _ _ h]

theorem findEnt_inspectFile_ne (cfg : Config) (st : ScanState)
    (f : FileInfo) (m : String) (h : m ≠ f.name) :
    findEnt (inspectFile cfg st f).entropies m = findEnt st.entropies m := by
  unfold inspectFile addOffense
  repeat' split
  all_goals simp [findEnt_setEnt_ne _ _ _ _ h]

theorem findEnt_inspectFile_self (cfg : Config) (st : ScanState)
    (f : FileInfo) (h0 : findEnt st.entropies f.name = none) :
    findEnt (inspectFile cfg st f).entropies f.name = fileEnt cfg f := by
  unfold inspectFile addOffense fileEnt
  by_cases hv : f.verifyOk = false
  · simp [hv, h0]
  · by_cases hm : f.mode = cfg.mode
    · by_cases hs : f.width ≠ cfg.sideLength ∨ f.height ≠ cfg.sideLength ∨
          f.width ≠ f.height
      · simp [hv, hm, hs, h0]
      · by_cases hce : cfg.checkEntropy = true
        · cases hEL : f.entropyLoad with
          | some e =>
            repeat' split
            all_goals simp_all [findEnt_setEnt_self]
          | none =>
            repeat' split
            all_goals simp_all
        · repeat' split
          all_goals simp_all
    · simp [hv, hm, h0]

theorem countName_inspectFile (cfg : Config) (st : ScanState)
    (f : FileInfo) (n : String) :
    countName n (allMembers (inspectFile cfg st f).hashes) =
      countName n (allMembers st.hashes) +
        (if passesToHash cfg f ∧ f.name = n then 1 else 0) := by
  unfold inspectFile addOffense passesToHash
  repeat' split
  all_goals simp_all [countName_bucketAdd]

theorem nFiles_inspectFile (cfg : Config) (st : ScanState) (f : FileInfo) :
    (inspectFile cfg st f).nFilesInspected = st.nFilesInspected + 1 := by
  unfold inspectFile addOffense
  repeat' split
  all_goals rfl

theorem uHashes_inspectFile (cfg : Config) (st : ScanState) (f : FileInfo) :
    (inspectFile cfg st f).uHashes = st.uHashes := by
  unfold inspectFile addOffense
  repeat' split
  all_goals rfl

/-! ### Effect of the whole per-file loop -/

theorem foldInspect_nil (cfg : Config) (st : ScanState) :
    foldInspect cfg st [] = st := rfl

theorem foldInspect_cons (cfg : Config) (st : ScanState) (f : FileInfo)
    (rest : List FileInfo) :
    foldInspect cfg st (f :: rest) =
      foldInspect cfg (inspectFile cfg st f) rest := rfl

theorem foldInspect_append (cfg : Config) (st : ScanState)
    (l₁ l₂ : List FileInfo) :
    foldInspect cfg st (l₁ ++ l₂) = foldInspect cfg (foldInspect cfg st l₁) l₂ :=
  List.foldl_append _ _ _ _

theorem findOff_foldInspect_ne (cfg : Config) (files : List FileInfo)
    (st : ScanState) (n : String) (h : ∀ f ∈ files, f.name ≠ n) :
    findOff (foldInspect cfg st files).offenses n = findOff st.offenses n := by
  induction files generalizing st with
  | nil => rfl
  | cons f rest ih =>
    rw [foldInspect_cons, ih _ fun g hg => h g (List.mem_cons_of_mem f hg),
      findOff_inspectFile_ne]
    exact Ne.symm (h f (List.mem_cons_self f rest))

theorem findEnt_foldInspect_ne (cfg : Config) (files : List FileInfo)
    (st : ScanState) (n : String) (h : ∀ f ∈ files, f.name ≠ n) :
    findEnt (foldInspect cfg st files).entropies n =
      findEnt st.entropies n := by
  induction files generalizing st with
  | nil => rfl
  | cons f rest ih =>
    rw [foldInspect_cons, ih _ fun g hg => h g (List.mem_cons_of_mem f hg),
      findEnt_inspectFile_ne]
    exact Ne.symm (h f (List.mem_cons_self f rest))

theorem findOff_foldInspect_self (cfg : Config) (pre post : List FileInfo)
    (f : FileInfo) (st : ScanState)
    (hpre : ∀ g ∈ pre, g.name ≠ f.name)
    (hpost : ∀ g ∈ post, g.name ≠ f.name)
    (h0 : findOff st.offenses f.name = none) :
    findOff (foldInspect cfg st (pre ++ f :: post)).offenses f.name =
      fileOff cfg f := by
  rw [foldInspect_append, foldInspect_cons,
    findOff_foldInspect_ne cfg post _ _ hpost,
    findOff_inspectFile_self]
  rw [findOff_foldInspect_ne cfg pre _ _ hpre]
  exact h0

theorem findEnt_foldInspect_self (cfg : Config) (pre post : List FileInfo)
    (f : FileInfo) (st : ScanState)
    (hpre : ∀ g ∈ pre, g.name ≠ f.name)
    (hpost : ∀ g ∈ post, g.name ≠ f.name)
    (h0 : findEnt st.entropies f.name = none) :
    findEnt (foldInspect cfg st (pre ++ f :: post)).entropies f.name =
      fileEnt cfg f := by
  rw [foldInspect_append, foldInspect_cons,
    findEnt_foldInspect_ne cfg post _ _ hpost,
    findEnt_inspectFile_self]
  rw [findEnt_foldInspect_ne cfg pre _ _ hpre]
  exact h0

/-- How many of the given files the hash stage adds under a given name. -/
def countPass (cfg : Config) (n : String) : List FileInfo → Nat
  | [] => 0
  | f :: rest =>
    (if passesToHash cfg f ∧ f.name = n then 1 else 0) + countPass cfg n rest

theorem countName_foldInspect (cfg : Config) (files : List FileInfo)
    (st : ScanState) (n : String) :
    countName n (allMembers (foldInspect cfg st files).hashes) =
      countName n (allMembers st.hashes) + countPass cfg n files := by
  induction files generalizing st with
  | nil => simp [foldInspect_nil, countPass]
  | cons f rest ih =>
    rw [foldInspect_cons, ih, countName_inspectFile]
    simp [countPass]
    omega

theorem countPass_pos (cfg : Config) (n : String) (files : List FileInfo)
    (h : 0 < countPass cfg n files) :
    ∃ f ∈ files, passesToHash cfg f ∧ f.name = n := by
  induction files with
  | nil => simp [countPass] at h
  | cons f rest ih =>
    by_cases hf : passesToHash cfg f ∧ f.name = n
    · exact ⟨f, List.mem_cons_self f rest, hf⟩
    · rw [countPass, if_neg hf] at h
      obtain ⟨g, hg, hgp⟩ := ih (by omega)
      exact ⟨g, List.mem_cons_of_mem f hg, hgp⟩

theorem countPass_le (cfg : Config) (n : String) (files : List FileInfo) :
    countPass cfg n files ≤ countName n (files.map FileInfo.name) := by
  induction files with
  | nil => simp [countPass, countName]
  | cons f rest ih =>
    rw [countPass]
    simp only [List.map_cons, countName]
    by_cases hf : passesToHash cfg f ∧ f.name = n
    · rw [if_pos hf, if_pos hf.2]
      omega
    · rw [if_neg hf]
      by_cases hn : f.name = n
      · rw [if_pos hn]
        omega
      · rw [if_neg hn]
        omega

theorem nFiles_foldInspect (cfg : Config) (files : List FileInfo)
    (st : ScanState) :
    (foldInspect cfg st files).nFilesInspected =
      st.nFilesInspected + files.length := by
  induction files generalizing st with
  | nil => simp [foldInspect_nil]
  | cons f rest ih =>
    rw [foldInspect_cons, ih, nFiles_inspectFile]
    simp
    omega

/-! ### Invariants of the offenses dict -/

/-- No entry of the offenses mapping carries the DUPLICATE flag. -/
def noDup (l : List (String × OffenseSet)) : Prop :=
  ∀ n s, findOff l n = some s → s.duplicate = false

theorem noDup_updOff (l : List (String × OffenseSet)) (n : String)
    (o : OffenseSet) (h : noDup l) (ho : o.duplicate = false) :
    noDup (updOff l n o) := by
  intro m s hm
  by_cases hmn : m = n
  · subst hmn
    rw [findOff_updOff_self] at hm
    cases hm
    cases hf : findOff l m with
    | none => simp [hf, OffenseSet.union, OffenseSet.empty, ho]
    | some t => simp [hf, OffenseSet.union, h m t hf, ho]
  · rw [findOff_updOff_ne _ _ _ _ hmn] at hm
    exact h m s hm

theorem noDup_inspectFile (cfg : Config) (st : ScanState) (f : FileInfo)
    (h : noDup st.offenses) : noDup (inspectFile cfg st f).offenses := by
  unfold inspectFile addOffense
  repeat' split
  all_goals
    first
    | exact h
    | exact noDup_updOff _ _ _ h rfl
    | exact noDup_updOff _ _ _ (noDup_updOff _ _ _ h rfl) rfl

theorem noDup_foldInspect (cfg : Config) (files : List FileInfo)
    (st : ScanState) (h : noDup st.offenses) :
    noDup (foldInspect cfg st files).offenses := by
  induction files generalizing st with
  | nil => exact h
  | cons f rest ih => exact ih _ (noDup_inspectFile cfg st f h)

theorem keysNodup_inspectFile (cfg : Config) (st : ScanState) (f : FileInfo)
    (h : (st.offenses.map Prod.fst).Nodup) :
    (((inspectFile cfg st f).offenses).map Prod.fst).Nodup := by
  unfold inspectFile addOffense
  repeat' split
  all_goals
    first
    | exact h
    | exact keys_updOff_nodup _ _ _ h
    | exact keys_updOff_nodup _ _ _ (keys_updOff_nodup _ _ _ h)

theorem keysNodup_foldInspect (cfg : Config) (files : List FileInfo)
    (st : ScanState) (h : (st.offenses.map Prod.fst).Nodup) :
    (((foldInspect cfg st files).offenses).map Prod.fst).Nodup := by
  induction files generalizing st with
  | nil => exact h
  | cons f rest ih => exact ih _ (keysNodup_inspectFile cfg st f h)

/-! ### The duplicate-marking pass -/

/-- Adding DUPLICATE to each name of a list in turn. -/
def addDupAll (st : ScanState) (L : List String) : ScanState :=
  L.foldl (fun s n => addOffense s n Offense.DUPLICATE) st

/-- The filenames that receive DUPLICATE: for every bucket with more than
one member, all members except the first. -/
def dupTargets : List (HashVal × List String) → List String
  | [] => []
  | (_, fs) :: rest =>
    (if fs.length > 1 then fs.drop 1 else []) ++ dupTargets rest

theorem addDupAll_nil (st : ScanState) : addDupAll st [] = st := rfl

theorem addDupAll_append (st : ScanState) (l₁ l₂ : List String) :
    addDupAll st (l₁ ++ l₂) = addDupAll (addDupAll st l₁) l₂ :=
  List.foldl_append _ _ _ _

theorem assignDuplicates_eq_addDupAll (st : ScanState) :
    assignDuplicates st = addDupAll st (dupTargets st.hashes) := by
  unfold assignDuplicates
  generalize st.hashes = bs
  induction bs generalizing st with
  | nil => rfl
  | cons p rest ih =>
    obtain ⟨k, fs⟩ := p
    rw [List.foldl_cons, dupTargets, addDupAll_append]
    by_cases hl : fs.length > 1
    · rw [if_pos hl, if_pos hl]
      exact ih _
    · rw [if_neg hl, if_neg hl, addDupAll_nil]
      exact ih _

theorem findOff_addDupAll (st : ScanState) (L : List String) (n : String) :
    findOff (addDupAll st L).offenses n =
      if n ∈ L then
        some (((findOff st.offenses n).getD OffenseSet.empty).union
          Offense.DUPLICATE)
      else findOff st.offenses n := by
  induction L generalizing st with
  | nil => simp [addDupAll_nil]
  | cons m rest ih =>
    have hstep : addDupAll st (m :: rest) =
        addDupAll (addOffense st m Offense.DUPLICATE) rest := rfl
    rw [hstep, ih]
    by_cases hnr : n ∈ rest
    · rw [if_pos hnr, if_pos (List.mem_cons_of_mem m hnr)]
      by_cases hnm : n = m
      · subst hnm
        show _ = some (((findOff st.offenses n).getD OffenseSet.empty).union _)
        rw [show (addOffense st n Offense.DUPLICATE).offenses =
            updOff st.offenses n Offense.DUPLICATE from rfl,
          findOff_updOff_self]
        simp [OffenseSet.union_self_right]
      · rw [show (addOffense st m Offense.DUPLICATE).offenses =
            updOff st.offenses m Offense.DUPLICATE from rfl,
          findOff_updOff_ne _ _ _ _ hnm]
    · rw [if_neg hnr]
      by_cases hnm : n = m
      · subst hnm
        rw [if_pos (List.mem_cons_self n rest),
          show (addOffense st n Offense.DUPLICATE).offenses =
            updOff st.offenses n Offense.DUPLICATE from rfl,
          findOff_updOff_self]
      · rw [if_neg (by simp [hnm, hnr]),
          show (addOffense st m Offense.DUPLICATE).offenses =
            updOff st.offenses m Offense.DUPLICATE from rfl,
          findOff_updOff_ne _ _ _ _ hnm]

theorem addDupAll_hashes (st : ScanState) (L : List String) :
    (addDupAll st L).hashes = st.hashes := by
  induction L generalizing st with
  | nil => rfl
  | cons m rest ih => exact ih _

theorem addDupAll_entropies (st : ScanState) (L : List String) :
    (addDupAll st L).entropies = st.entropies := by
  induction L generalizing st with
  | nil => rfl
  | cons m rest ih => exact ih _

theorem addDupAll_nFiles (st : ScanState) (L : List String) :
    (addDupAll st L).nFilesInspected = st.nFilesInspected := by
  induction L generalizing st with
  | nil => rfl
  | cons m rest ih => exact ih _

theorem addDupAll_keysNodup (st : ScanState) (L : List String)
    (h : (st.offenses.map Prod.fst).Nodup) :
    (((addDupAll st L).offenses).map Prod.fst).Nodup := by
  induction L generalizing st with
  | nil => exact h
  | cons m rest ih => exact ih _ (keys_updOff_nodup _ _ _ h)

/-! ### Characterization of the final scan state -/

/-- The state after the per-file loop, before duplicate clustering. -/
def preScan (cfg : Config) (files : List FileInfo) : ScanState :=
  foldInspect cfg initState files

/-- The buckets the duplicate loop of lines 125-132 iterates: `self.hashes`
after the soft pass — whose aliased `+=` extended the representative
buckets in place — in soft mode, the untouched exact buckets otherwise. -/
def clusteredHashes (cfg : Config) (files : List FileInfo) :
    List (HashVal × List String) :=
  if cfg.softHash then
    (softLoop cfg.softHashThreshold
      ((preScan cfg files).hashes.map Prod.fst)
      (preScan cfg files).hashes []).1
  else (preScan cfg files).hashes

theorem findOff_inspect (cfg : Config) (files : List FileInfo) (n : String) :
    findOff (inspect cfg files).offenses n =
      if n ∈ dupTargets (clusteredHashes cfg files) then
        some (((findOff (preScan cfg files).offenses n).getD
          OffenseSet.empty).union Offense.DUPLICATE)
      else findOff (preScan cfg files).offenses n := by
  unfold inspect clusteredHashes preScan
  by_cases hs : cfg.softHash
  · simp only [if_pos hs, assignDuplicates_eq_addDupAll]
    rw [findOff_addDupAll]
  · simp only [if_neg hs, assignDuplicates_eq_addDupAll]
    rw [findOff_addDupAll]

theorem inspect_hashes (cfg : Config) (files : List FileInfo) :
    (inspect cfg files).hashes = clusteredHashes cfg files := by
  unfold inspect clusteredHashes preScan
  by_cases hs : cfg.softHash
  · simp only [if_pos hs, assignDuplicates_eq_addDupAll]
    rw [addDupAll_hashes]
  · simp only [if_neg hs, assignDuplicates_eq_addDupAll]
    rw [addDupAll_hashes]

theorem inspect_entropies (cfg : Config) (files : List FileInfo) :
    (inspect cfg files).entropies = (preScan cfg files).entropies := by
  unfold inspect
  by_cases hs : cfg.softHash
  · simp only [if_pos hs, assignDuplicates_eq_addDupAll]
    rw [addDupAll_entropies]
    rfl
  · simp only [if_neg hs, assignDuplicates_eq_addDupAll]
    rw [addDupAll_entropies]
    rfl

theorem inspect_nFiles (cfg : Config) (files : List FileInfo) :
    (inspect cfg files).nFilesInspected = files.length := by
  unfold inspect
  by_cases hs : cfg.softHash
  · simp only [if_pos hs, assignDuplicates_eq_addDupAll]
    rw [addDupAll_nFiles]
    show (foldInspect cfg initState files).nFilesInspected = files.length
    rw [nFiles_foldInspect cfg files initState]
    simp [initState]
  · simp only [if_neg hs, assignDuplicates_eq_addDupAll]
    rw [addDupAll_nFiles]
    show (foldInspect cfg initState files).nFilesInspected = files.length
    rw [nFiles_foldInspect cfg files initState]
    simp [initState]

theorem inspect_keysNodup (cfg : Config) (files : List FileInfo) :
    (((inspect cfg files).offenses).map Prod.fst).Nodup := by
  unfold inspect
  by_cases hs : cfg.softHash
  · simp only [if_pos hs, assignDuplicates_eq_addDupAll]
    exact addDupAll_keysNodup _ _
      (keysNodup_foldInspect cfg files initState (by simp [initState]))
  · simp only [if_neg hs, assignDuplicates_eq_addDupAll]
    exact addDupAll_keysNodup _ _
      (keysNodup_foldInspect cfg files initState (by simp [initState]))

theorem noDup_preScan (cfg : Config) (files : List FileInfo) :
    noDup (preScan cfg files).offenses :=
  noDup_foldInspect cfg files initState (by intro n s h; cases h)

/-! ### Locating a file's contribution in the final state -/

theorem exists_split_of_mem_nodup (files : List FileInfo) (f : FileInfo)
    (hf : f ∈ files) (hN : (files.map FileInfo.name).Nodup) :
    ∃ pre post, files = pre ++ f :: post ∧
      (∀ g ∈ pre, g.name ≠ f.name) ∧ (∀ g ∈ post, g.name ≠ f.name) := by
  obtain ⟨pre, post, rfl⟩ := List.append_of_mem hf
  rw [List.map_append, List.map_cons, List.nodup_append] at hN
  refine ⟨pre, post, rfl, ?_, ?_⟩
  · intro g hg hEq
    exact hN.2.2 (List.mem_map_of_mem _ hg)
      (by rw [hEq]; exact List.mem_cons_self _ _)
  · have hc := List.nodup_cons.mp hN.2.1
    intro g hg hEq
    exact hc.1 (hEq ▸ List.mem_map_of_mem _ hg)

theorem findOff_preScan (cfg : Config) (files : List FileInfo) (f : FileInfo)
    (hf : f ∈ files) (hN : (files.map FileInfo.name).Nodup) :
    findOff (preScan cfg files).offenses f.name = fileOff cfg f := by
  obtain ⟨pre, post, rfl, hpre, hpost⟩ :=
    exists_split_of_mem_nodup files f hf hN
  exact findOff_foldInspect_self cfg pre post f initState hpre hpost rfl

theorem findEnt_preScan (cfg : Config) (files : List FileInfo) (f : FileInfo)
    (hf : f ∈ files) (hN : (files.map FileInfo.name).Nodup) :
    findEnt (preScan cfg files).entropies f.name = fileEnt cfg f := by
  obtain ⟨pre, post, rfl, hpre, hpost⟩ :=
    exists_split_of_mem_nodup files f hf hN
  exact findEnt_foldInspect_self cfg pre post f initState hpre hpost rfl

theorem findOff_preScan_none (cfg : Config) (files : List FileInfo)
    (n : String) (h : ∀ f ∈ files, f.name ≠ n) :
    findOff (preScan cfg files).offenses n = none :=
  findOff_foldInspect_ne cfg files initState n h

theorem mem_allMembers_preScan (cfg : Config) (files : List FileInfo)
    (n : String) (h : n ∈ allMembers (preScan cfg files).hashes) :
    ∃ f ∈ files, passesToHash cfg f ∧ f.name = n := by
  have hc : 0 < countName n (allMembers (preScan cfg files).hashes) :=
    (countName_pos n _).mpr h
  rw [preScan, countName_foldInspect] at hc
  simp only [initState, allMembers, countName] at hc
  exact countPass_pos cfg n files (by omega)

theorem allMembers_preScan_nodup (cfg : Config) (files : List FileInfo)
    (hN : (files.map FileInfo.name).Nodup) :
    (allMembers (preScan cfg files).hashes).Nodup := by
  refine nodup_of_countName _ fun n => ?_
  rw [preScan, countName_foldInspect]
  simp only [initState, allMembers, countName, Nat.zero_add]
  exact le_trans (countPass_le cfg n files) (countName_nodup _ hN n)

/-! ### Structure of the duplicate-target list -/

theorem length_of_mem_drop_one (fns : List String) (n : String)
    (h : n ∈ fns.drop 1) : 1 < fns.length := by
  match fns with
  | [] => simp at h
  | [a] => simp at h
  | a :: b :: t => simp

theorem mem_dupTargets_of_tail (bs : List (HashVal × List String))
    (k : HashVal) (fns : List String) (n : String)
    (hb : (k, fns) ∈ bs) (hn : n ∈ fns.drop 1) : n ∈ dupTargets bs := by
  induction bs with
  | nil => cases hb
  | cons p rest ih =>
    obtain ⟨k', gs⟩ := p
    rw [dupTargets, List.mem_append]
    rcases List.mem_cons.mp hb with heq | hmem
    · left
      cases heq
      rw [if_pos (length_of_mem_drop_one fns n hn)]
      exact hn
    · right
      exact ih hmem

theorem mem_allMembers_of_dupTargets (bs : List (HashVal × List String))
    (n : String) (h : n ∈ dupTargets bs) : n ∈ allMembers bs := by
  induction bs with
  | nil => cases h
  | cons p rest ih =>
    obtain ⟨k, gs⟩ := p
    rw [dupTargets, List.mem_append] at h
    rw [allMembers, List.mem_append]
    rcases h with h | h
    · left
      by_cases hl : gs.length > 1
      · rw [if_pos hl] at h
        exact List.mem_of_mem_drop h
      · rw [if_neg hl] at h
        cases h
    · right
      exact ih h

theorem bucket_subset_allMembers (bs : List (HashVal × List String))
    (k : HashVal) (fns : List String) (hb : (k, fns) ∈ bs) :
    ∀ n ∈ fns, n ∈ allMembers bs := by
  induction bs with
  | nil => cases hb
  | cons p rest ih =>
    obtain ⟨k', gs⟩ := p
    intro n hn
    rw [allMembers, List.mem_append]
    rcases List.mem_cons.mp hb with heq | hmem
    · left
      cases heq
      exact hn
    · right
      exact ih hmem n hn

theorem head_not_mem_dupTargets (bs : List (HashVal × List String))
    (hN : (allMembers bs).Nodup) (k : HashVal) (fns : List String)
    (n : String) (hb : (k, fns) ∈ bs) (hh : fns.head? = some n) :
    n ∉ dupTargets bs := by
  induction bs with
  | nil => cases hb
  | cons p rest ih =>
    obtain ⟨k', gs⟩ := p
    rw [allMembers, List.nodup_append] at hN
    intro hmem
    rw [dupTargets, List.mem_append] at hmem
    rcases List.mem_cons.mp hb with heq | hrest
    · cases heq
      have hfns : fns = n :: fns.tail := by
        cases fns <;> simp_all
      rcases hmem with hmem | hmem
      · by_cases hl : fns.length > 1
        · rw [if_pos hl] at hmem
          rw [hfns] at hN
          have : n ∉ fns.tail := (List.nodup_cons.mp hN.1).1
          rw [hfns] at hmem
          exact this hmem
        · rw [if_neg hl] at hmem
          cases hmem
      · have hnfns : n ∈ fns := by
          rw [hfns]
          exact List.mem_cons_self _ _
        exact hN.2.2 hnfns (mem_allMembers_of_dupTargets rest n hmem)
    · have hnfns : n ∈ fns := by
        have : fns = n :: fns.tail := by cases fns <;> simp_all
        rw [this]
        exact List.mem_cons_self _ _
      rcases hmem with hmem | hmem
      · by_cases hl : gs.length > 1
        · rw [if_pos hl] at hmem
          exact hN.2.2 (List.mem_of_mem_drop hmem)
            (bucket_subset_allMembers rest k fns hrest n hnfns)
        · rw [if_neg hl] at hmem
          cases hmem
      · exact ih hN.2.1 hrest hmem

/-! ### Bucket keys, reads and in-place extension -/

/-- The keys of a bucket list, in order. -/
def bucketKeys (bs : List (HashVal × List String)) : List HashVal :=
  bs.map Prod.fst

theorem bucketKeys_nil : bucketKeys [] = [] := rfl

theorem bucketKeys_cons (p : HashVal × List String)
    (bs : List (HashVal × List String)) :
    bucketKeys (p :: bs) = p.1 :: bucketKeys bs := rfl

theorem bucketKeys_append (l₁ l₂ : List (HashVal × List String)) :
    bucketKeys (l₁ ++ l₂) = bucketKeys l₁ ++ bucketKeys l₂ :=
  List.map_append _ _ _

theorem bucketKeys_bucketExtend (l : List (HashVal × List String))
    (k : HashVal) (fs : List String) :
    bucketKeys (bucketExtend l k fs) = bucketKeys l := by
  induction l with
  | nil => rfl
  | cons p rest ih =>
    obtain ⟨m, gs⟩ := p
    by_cases hm : m = k
    · simp [bucketExtend, hm, bucketKeys]
    · simp [bucketExtend, hm, bucketKeys] at ih ⊢
      exact ih

theorem bucketGet_append (l₁ l₂ : List (HashVal × List String))
    (k : HashVal) :
    bucketGet (l₁ ++ l₂) k =
      if k ∈ bucketKeys l₁ then bucketGet l₁ k else bucketGet l₂ k := by
  induction l₁ with
  | nil => simp [bucketGet, bucketKeys]
  | cons p rest ih =>
    obtain ⟨m, gs⟩ := p
    by_cases hm : m = k
    · subst hm
      simp [bucketGet, bucketKeys]
    · rw [bucketKeys_cons]
      by_cases hk2 : k ∈ bucketKeys rest
      · simp [bucketGet, hm, hk2, ih, Ne.symm hm]
      · simp [bucketGet, hm, hk2, ih, Ne.symm hm]

theorem bucketGet_bucketExtend_self (l : List (HashVal × List String))
    (k : HashVal) (fs : List String) (hk : k ∈ bucketKeys l) :
    bucketGet (bucketExtend l k fs) k = bucketGet l k ++ fs := by
  induction l with
  | nil => simp [bucketKeys] at hk
  | cons p rest ih =>
    obtain ⟨m, gs⟩ := p
    by_cases hm : m = k
    · subst hm
      simp [bucketExtend, bucketGet]
    · rw [bucketKeys_cons] at hk
      rcases List.mem_cons.mp hk with heq | hmem

      · exact absurd heq.symm hm
      · simp [bucketExtend, bucketGet, hm]
        exact ih hmem

theorem bucketGet_bucketExtend_ne (l : List (HashVal × List String))
    (k m : HashVal) (fs : List String) (h : m ≠ k) :
    bucketGet (bucketExtend l k fs) m = bucketGet l m := by
  induction l with
  | nil => rfl
  | cons p rest ih =>
    obtain ⟨k', gs⟩ := p
    by_cases hk : k' = k
    · subst hk
      simp [bucketExtend, bucketGet, Ne.symm h]
    · by_cases hm : k' = m
      · subst hm
        simp [bucketExtend, bucketGet, hk]
      · simp [bucketExtend, bucketGet, hk, hm]
        exact ih

theorem bucketExtend_append_left (l₁ l₂ : List (HashVal × List String))
    (k : HashVal) (fs : List String) (hk : k ∈ bucketKeys l₁) :
    bucketExtend (l₁ ++ l₂) k fs = bucketExtend l₁ k fs ++ l₂ := by
  induction l₁ with
  | nil => simp [bucketKeys] at hk
  | cons p rest ih =>
    obtain ⟨m, gs⟩ := p
    by_cases hm : m = k
    · simp [bucketExtend, hm]
    · rw [bucketKeys_cons] at hk
      rcases List.mem_cons.mp hk with heq | hmem
      · exact absurd heq.symm hm
      · simp [bucketExtend, hm]
        exact ih hmem

theorem bucketGet_of_mem (l : List (HashVal × List String)) (k : HashVal)
    (fs : List String) (hN : (bucketKeys l).Nodup) (h : (k, fs) ∈ l) :
    bucketGet l k = fs := by
  induction l with
  | nil => cases h
  | cons p rest ih =>
    obtain ⟨m, gs⟩ := p
    rw [bucketKeys_cons, List.nodup_cons] at hN
    rcases List.mem_cons.mp h with heq | hmem
    · cases heq
      simp [bucketGet]
    · have hm : m ≠ k := by
        intro hc
        subst hc
        exact hN.1 (List.mem_map.mpr ⟨(m, fs), hmem, rfl⟩)
      simp [bucketGet, hm]
      exact ih hN.2 hmem

theorem mem_of_bucketGet (l : List (HashVal × List String)) (k : HashVal)
    (hk : k ∈ bucketKeys l) : (k, bucketGet l k) ∈ l := by
  induction l with
  | nil => simp [bucketKeys] at hk
  | cons p rest ih =>
    obtain ⟨m, gs⟩ := p
    by_cases hm : m = k
    · subst hm
      simp [bucketGet]
    · rw [bucketKeys_cons] at hk
      rcases List.mem_cons.mp hk with heq | hmem
      · exact absurd heq.symm hm
      · rw [bucketGet, if_neg hm]
        exact List.mem_cons_of_mem _ (ih hmem)

theorem mem_allMembers_of_bucketGet (l : List (HashVal × List String))
    (k : HashVal) (n : String) (h : n ∈ bucketGet l k) :
    n ∈ allMembers l := by
  induction l with
  | nil => simp [bucketGet] at h
  | cons p rest ih =>
    obtain ⟨m, gs⟩ := p
    rw [allMembers, List.mem_append]
    by_cases hm : m = k
    · subst hm
      rw [bucketGet, if_pos rfl] at h
      exact Or.inl h
    · rw [bucketGet, if_neg hm] at h
      exact Or.inr (ih h)

/-! ### Keys and non-emptiness of the exact buckets -/

theorem bucketKeys_bucketAdd (bs : List (HashVal × List String))
    (h : HashVal) (n : String) :
    bucketKeys (bucketAdd bs h n) =
      if h ∈ bucketKeys bs then bucketKeys bs else bucketKeys bs ++ [h] := by
  induction bs with
  | nil => simp [bucketAdd, bucketKeys]
  | cons p rest ih =>
    obtain ⟨k, fs⟩ := p
    by_cases hk : k = h
    · subst hk
      simp [bucketAdd, bucketKeys]
    · simp only [bucketAdd, if_neg hk, bucketKeys_cons, List.mem_cons]
      rw [ih]
      by_cases hh : h ∈ bucketKeys rest
      · simp [hh, Ne.symm hk]
      · simp [hh, Ne.symm hk]

theorem bucketKeys_bucketAdd_nodup (bs : List (HashVal × List String))
    (h : HashVal) (n : String) (hN : (bucketKeys bs).Nodup) :
    (bucketKeys (bucketAdd bs h n)).Nodup := by
  rw [bucketKeys_bucketAdd]
  by_cases hh : h ∈ bucketKeys bs
  · simpa [hh]
  · simpa [hh, List.nodup_append] using hN

theorem hashKeysNodup_inspectFile (cfg : Config) (st : ScanState)
    (f : FileInfo) (h : (bucketKeys st.hashes).Nodup) :
    (bucketKeys (inspectFile cfg st f).hashes).Nodup := by
  unfold inspectFile addOffense
  repeat' split
  all_goals
    first
    | exact h
    | exact bucketKeys_bucketAdd_nodup _ _ _ h

theorem hashKeysNodup_preScan (cfg : Config) (files : List FileInfo) :
    (bucketKeys (preScan cfg files).hashes).Nodup := by
  rw [preScan]
  have : ∀ (fs : List FileInfo) (st : ScanState),
      (bucketKeys st.hashes).Nodup →
      (bucketKeys (foldInspect cfg st fs).hashes).Nodup := by
    intro fs
    induction fs with
    | nil => exact fun st h => h
    | cons g rest ih =>
      exact fun st h => ih _ (hashKeysNodup_inspectFile cfg st g h)
  exact this files initState (by simp [initState, bucketKeys])

theorem nonempty_bucketAdd (bs : List (HashVal × List String))
    (h : HashVal) (n : String)
    (hne : ∀ k fs, (k, fs) ∈ bs → fs ≠ []) :
    ∀ k fs, (k, fs) ∈ bucketAdd bs h n → fs ≠ [] := by
  induction bs with
  | nil =>
    intro k fs hm
    rw [bucketAdd] at hm
    rcases List.mem_singleton.mp hm with heq
    cases heq
    simp
  | cons p rest ih =>
    obtain ⟨k', gs⟩ := p
    intro k fs hm
    by_cases hk : k' = h
    · subst hk
      rw [bucketAdd, if_pos rfl] at hm
      rcases List.mem_cons.mp hm with heq | hmem
      · cases heq
        simp
      · exact hne k fs (List.mem_cons_of_mem _ hmem)
    · rw [bucketAdd, if_neg hk] at hm
      rcases List.mem_cons.mp hm with heq | hmem
      · injection heq with h1 h2
        subst h1
        subst h2
        exact hne k fs (List.mem_cons_self _ _)
      · exact ih (fun a b hab => hne a b (List.mem_cons_of_mem _ hab))
          k fs hmem

theorem nonempty_inspectFile (cfg : Config) (st : ScanState) (f : FileInfo)
    (hne : ∀ k fs, (k, fs) ∈ st.hashes → fs ≠ []) :
    ∀ k fs, (k, fs) ∈ (inspectFile cfg st f).hashes → fs ≠ [] := by
  unfold inspectFile addOffense
  repeat' split
  all_goals
    first
    | exact hne
    | exact nonempty_bucketAdd _ _ _ hne

theorem nonempty_preScan (cfg : Config) (files : List FileInfo) :
    ∀ k fs, (k, fs) ∈ (preScan cfg files).hashes → fs ≠ [] := by
  rw [preScan]
  have : ∀ (fs : List FileInfo) (st : ScanState),
      (∀ k gs, (k, gs) ∈ st.hashes → gs ≠ []) →
      ∀ k gs, (k, gs) ∈ (foldInspect cfg st fs).hashes → gs ≠ [] := by
    intro fs
    induction fs with
    | nil => exact fun st h => h
    | cons g rest ih =>
      exact fun st h => ih _ (nonempty_inspectFile cfg st g h)
  exact this files initState (by intro k gs h; cases h)

/-! ### The soft-merge rule, cluster by cluster -/

theorem findRep_mem (thr : Nat) (cl : List (HashVal × List String))
    (h r : HashVal) (hf : findRep thr cl h = some r) :
    r ∈ bucketKeys cl := by
  induction cl with
  | nil => cases hf
  | cons p rest ih =>
    obtain ⟨k, sfs⟩ := p
    rw [bucketKeys_cons]
    by_cases hd : hashDist k h < thr
    · rw [findRep, if_pos hd] at hf
      cases hf
      exact List.mem_cons_self _ _
    · rw [findRep, if_neg hd] at hf
      exact List.mem_cons_of_mem _ (ih hf)

theorem softStep_of_findRep_some (thr : Nat)
    (cl : List (HashVal × List String)) (h r : HashVal) (fs : List String)
    (hN : (bucketKeys cl).Nodup) (hf : findRep thr cl h = some r) :
    softStep thr cl h fs = bucketExtend cl r fs := by
  induction cl with
  | nil => cases hf
  | cons p rest ih =>
    obtain ⟨k, sfs⟩ := p
    rw [bucketKeys_cons, List.nodup_cons] at hN
    by_cases hd : hashDist k h < thr
    · rw [findRep, if_pos hd] at hf
      cases hf
      rw [softStep, if_pos hd, bucketExtend, if_pos rfl]
    · rw [findRep, if_neg hd] at hf
      have hkr : k ≠ r := by
        intro hc
        subst hc
        exact hN.1 (findRep_mem thr rest h k hf)
      rw [softStep, if_neg hd, bucketExtend, if_neg hkr, ih hN.2 hf]

theorem softStep_of_findRep_none (thr : Nat)
    (cl : List (HashVal × List String)) (h : HashVal) (fs : List String)
    (hf : findRep thr cl h = none) :
    softStep thr cl h fs = cl ++ [(h, fs)] := by
  induction cl with
  | nil => rfl
  | cons p rest ih =>
    obtain ⟨k, sfs⟩ := p
    by_cases hd : hashDist k h < thr
    · rw [findRep, if_pos hd] at hf
      cases hf
    · rw [findRep, if_neg hd] at hf
      rw [softStep, if_neg hd, ih hf, List.cons_append]

theorem mem_softStep (thr : Nat) (cl : List (HashVal × List String))
    (h k : HashVal) (fs fns : List String)
    (hm : (k, fns) ∈ softStep thr cl h fs) :
    (k, fns) ∈ cl ∨ (∃ fns1, (k, fns1) ∈ cl ∧ fns = fns1 ++ fs) ∨
      ((k, fns) = (h, fs)) := by
  induction cl with
  | nil =>
    rw [softStep] at hm
    rcases List.mem_singleton.mp hm with heq
    exact Or.inr (Or.inr heq)
  | cons p rest ih =>
    obtain ⟨k', sfs⟩ := p
    by_cases hd : hashDist k' h < thr
    · rw [softStep, if_pos hd] at hm
      rcases List.mem_cons.mp hm with heq | hmem
      · injection heq with h1 h2
        subst h1
        subst h2
        exact Or.inr (Or.inl ⟨sfs, List.mem_cons_self _ _, rfl⟩)
      · exact Or.inl (List.mem_cons_of_mem _ hmem)
    · rw [softStep, if_neg hd] at hm
      rcases List.mem_cons.mp hm with heq | hmem
      · exact Or.inl (heq ▸ List.mem_cons_self _ _)
      · rcases ih hmem with hc | ⟨fns1, hf1, hext⟩ | heq
        · exact Or.inl (List.mem_cons_of_mem _ hc)
        · exact Or.inr (Or.inl ⟨fns1, List.mem_cons_of_mem _ hf1, hext⟩)
        · exact Or.inr (Or.inr heq)

theorem countName_softStep (thr : Nat) (cl : List (HashVal × List String))
    (h : HashVal) (fs : List String) (n : String) :
    countName n (allMembers (softStep thr cl h fs)) =
      countName n (allMembers cl) + countName n fs := by
  induction cl with
  | nil => simp [softStep, allMembers, countName]
  | cons p rest ih =>
    obtain ⟨k, sfs⟩ := p
    by_cases hd : hashDist k h < thr
    · rw [softStep, if_pos hd]
      simp [allMembers, countName_append]
      omega
    · rw [softStep, if_neg hd]
      simp [allMembers, countName_append, ih]
      omega

theorem bucketKeys_softStep (thr : Nat) (cl : List (HashVal × List String))
    (h : HashVal) (fs : List String) :
    bucketKeys (softStep thr cl h fs) = bucketKeys cl ∨
      bucketKeys (softStep thr cl h fs) = bucketKeys cl ++ [h] := by
  induction cl with
  | nil => exact Or.inr rfl
  | cons p rest ih =>
    obtain ⟨k, sfs⟩ := p
    by_cases hd : hashDist k h < thr
    · rw [softStep, if_pos hd]
      exact Or.inl rfl
    · rw [softStep, if_neg hd, bucketKeys_cons, bucketKeys_cons]
      rcases ih with heq | heq
      · exact Or.inl (by rw [heq])
      · exact Or.inr (by rw [heq, List.cons_append])

theorem softMerge_snoc (thr : Nat) (bs : List (HashVal × List String))
    (p : HashVal × List String) :
    softMerge thr (bs ++ [p]) = softStep thr (softMerge thr bs) p.1 p.2 := by
  unfold softMerge
  rw [List.foldl_append]
  rfl

theorem softMerge_cluster_origin (thr : Nat)
    (bs : List (HashVal × List String)) (k : HashVal) (fns : List String)
    (hm : (k, fns) ∈ softMerge thr bs) :
    ∃ gs0 ext, (k, gs0) ∈ bs ∧ fns = gs0 ++ ext := by
  have aux : ∀ (todo acc : List (HashVal × List String)) (k : HashVal)
      (fns : List String),
      (k, fns) ∈ todo.foldl (fun a p => softStep thr a p.1 p.2) acc →
      (∃ fns0 ext, (k, fns0) ∈ acc ∧ fns = fns0 ++ ext) ∨
        (∃ gs0 ext, (k, gs0) ∈ todo ∧ fns = gs0 ++ ext) := by
    intro todo
    induction todo with
    | nil =>
      intro acc k fns hm
      exact Or.inl ⟨fns, [], hm, by simp⟩
    | cons p rest ih =>
      obtain ⟨h, fs⟩ := p
      intro acc k fns hm
      rw [List.foldl_cons] at hm
      rcases ih _ k fns hm with ⟨fns0, ext, hf0, hext⟩ | ⟨gs0, ext, hg0, hext⟩
      · rcases mem_softStep thr acc h k fs fns0 hf0 with
          hc | ⟨fns1, hf1, hext1⟩ | heq
        · exact Or.inl ⟨fns0, ext, hc, hext⟩
        · exact Or.inl ⟨fns1, fs ++ ext, hf1, by rw [hext, hext1,
            List.append_assoc]⟩
        · injection heq with h1 h2
          subst h1
          subst h2
          exact Or.inr ⟨fns0, ext, List.mem_cons_self _ _, hext⟩
      · exact Or.inr ⟨gs0, ext, List.mem_cons_of_mem _ hg0, hext⟩
  rcases aux bs [] k fns hm with ⟨fns0, ext, hf0, _⟩ | hres
  · cases hf0
  · exact hres

theorem bucketKeys_softMerge_subset (thr : Nat)
    (bs : List (HashVal × List String)) (r : HashVal)
    (hr : r ∈ bucketKeys (softMerge thr bs)) : r ∈ bucketKeys bs := by
  rcases List.mem_map.mp hr with ⟨⟨k, fns⟩, hmem, hk⟩
  cases hk
  obtain ⟨gs0, ext, hg0, _⟩ := softMerge_cluster_origin thr bs _ fns hmem
  exact List.mem_map.mpr ⟨(_, gs0), hg0, rfl⟩

theorem bucketKeys_softMerge_nodup (thr : Nat)
    (bs : List (HashVal × List String)) (hN : (bucketKeys bs).Nodup) :
    (bucketKeys (softMerge thr bs)).Nodup := by
  have aux : ∀ (todo acc : List (HashVal × List String)),
      (bucketKeys acc ++ bucketKeys todo).Nodup →
      (bucketKeys (todo.foldl (fun a p => softStep thr a p.1 p.2)
        acc)).Nodup := by
    intro todo
    induction todo with
    | nil =>
      intro acc h
      simpa [bucketKeys_nil] using h
    | cons p rest ih =>
      obtain ⟨h, fs⟩ := p
      intro acc hnd
      rw [List.foldl_cons]
      apply ih
      rw [bucketKeys_cons] at hnd
      rcases bucketKeys_softStep thr acc h fs with heq | heq
      · rw [heq]
        refine List.Nodup.sublist ?_ hnd
        exact List.Sublist.append_left (List.sublist_cons_self _ _) _
      · rw [heq]
        simpa [List.append_assoc] using hnd
  exact aux bs [] (by simpa using hN)

theorem countName_softMerge (thr : Nat)
    (bs : List (HashVal × List String)) (n : String) :
    countName n (allMembers (softMerge thr bs)) =
      countName n (allMembers bs) := by
  have aux : ∀ (todo acc : List (HashVal × List String)),
      countName n (allMembers (todo.foldl
        (fun a p => softStep thr a p.1 p.2) acc)) =
      countName n (allMembers acc) + countName n (allMembers todo) := by
    intro todo
    induction todo with
    | nil =>
      intro acc
      simp [allMembers, countName]
    | cons p rest ih =>
      obtain ⟨h, fs⟩ := p
      intro acc
      rw [List.foldl_cons, ih, countName_softStep]
      simp [allMembers, countName_append]
      omega
  have := aux bs []
  simpa [allMembers, countName] using this

theorem mem_allMembers_softMerge (thr : Nat)
    (bs : List (HashVal × List String)) (n : String) :
    n ∈ allMembers (softMerge thr bs) ↔ n ∈ allMembers bs := by
  rw [← countName_pos, ← countName_pos, countName_softMerge]

theorem allMembers_softMerge_nodup (thr : Nat)
    (bs : List (HashVal × List String)) (hN : (allMembers bs).Nodup) :
    (allMembers (softMerge thr bs)).Nodup := by
  refine nodup_of_countName _ fun n => ?_
  rw [countName_softMerge]
  exact countName_nodup _ hN n

/-! ### The aliased mutation of the exact buckets -/

/-- What one bucket of `self.hashes` looks like after the soft pass: a
bucket whose key became a soft-cluster representative holds the full
cluster member list, any other bucket is untouched. -/
def extendEntry (cl : List (HashVal × List String))
    (p : HashVal × List String) : HashVal × List String :=
  if p.1 ∈ bucketKeys cl then (p.1, bucketGet cl p.1) else p

/-- The net effect of the aliased in-place extensions on `self.hashes`. -/
def extendBuckets (bs cl : List (HashVal × List String)) :
    List (HashVal × List String) :=
  bs.map (extendEntry cl)

theorem extendEntry_fst (cl : List (HashVal × List String))
    (p : HashVal × List String) : (extendEntry cl p).1 = p.1 := by
  unfold extendEntry
  split
  · rfl
  · rfl

theorem extendBuckets_cons (p : HashVal × List String)
    (bs cl : List (HashVal × List String)) :
    extendBuckets (p :: bs) cl = extendEntry cl p :: extendBuckets bs cl :=
  rfl

theorem extendBuckets_nil (cl : List (HashVal × List String)) :
    extendBuckets [] cl = [] := rfl

theorem extendBuckets_append (l₁ l₂ cl : List (HashVal × List String)) :
    extendBuckets (l₁ ++ l₂) cl =
      extendBuckets l₁ cl ++ extendBuckets l₂ cl :=
  List.map_append _ _ _

theorem bucketKeys_extendBuckets (bs cl : List (HashVal × List String)) :
    bucketKeys (extendBuckets bs cl) = bucketKeys bs := by
  induction bs with
  | nil => rfl
  | cons p rest ih =>
    rw [extendBuckets_cons, bucketKeys_cons, bucketKeys_cons,
      extendEntry_fst, ih]

theorem extendEntry_bucketExtend_ne (cl : List (HashVal × List String))
    (r : HashVal) (fs : List String) (q : HashVal × List String)
    (h : q.1 ≠ r) :
    extendEntry (bucketExtend cl r fs) q = extendEntry cl q := by
  unfold extendEntry
  rw [bucketKeys_bucketExtend]
  by_cases hq : q.1 ∈ bucketKeys cl
  · rw [if_pos hq, if_pos hq, bucketGet_bucketExtend_ne cl r q.1 fs h]
  · rw [if_neg hq, if_neg hq]

theorem extendEntry_append_new (cl : List (HashVal × List String))
    (h : HashVal) (fs : List String) (q : HashVal × List String)
    (hq : q.1 ≠ h) :
    extendEntry (cl ++ [(h, fs)]) q = extendEntry cl q := by
  unfold extendEntry
  rw [bucketKeys_append, bucketKeys_cons, bucketKeys_nil]
  by_cases hqc : q.1 ∈ bucketKeys cl
  · rw [if_pos (List.mem_append_left _ hqc), if_pos hqc,
      bucketGet_append, if_pos hqc]
  · rw [if_neg ?_, if_neg hqc]
    intro hc
    rcases List.mem_append.mp hc with h1 | h1
    · exact hqc h1
    · rcases List.mem_cons.mp h1 with h2 | h2
      · exact hq h2
      · cases h2

theorem extendBuckets_bucketExtend (bs cl : List (HashVal × List String))
    (r : HashVal) (fs : List String) (hN : (bucketKeys bs).Nodup)
    (hr : r ∈ bucketKeys cl) :
    bucketExtend (extendBuckets bs cl) r fs =
      extendBuckets bs (bucketExtend cl r fs) := by
  induction bs with
  | nil => rfl
  | cons p rest ih =>
    rw [bucketKeys_cons, List.nodup_cons] at hN
    rw [extendBuckets_cons, extendBuckets_cons]
    by_cases hk : p.1 = r
    · have hpc : p.1 ∈ bucketKeys cl := hk ▸ hr
      have hE : extendEntry cl p = (p.1, bucketGet cl p.1) := by
        unfold extendEntry
        rw [if_pos hpc]
      have hE2 : extendEntry (bucketExtend cl r fs) p =
          (p.1, bucketGet cl p.1 ++ fs) := by
        unfold extendEntry
        rw [bucketKeys_bucketExtend, if_pos hpc, hk,
          bucketGet_bucketExtend_self cl r fs hr]
      have hrest : extendBuckets rest (bucketExtend cl r fs) =
          extendBuckets rest cl := by
        apply List.map_congr_left
        intro q hq
        refine extendEntry_bucketExtend_ne cl r fs q ?_
        intro hc
        refine hN.1 ?_
        rw [hk, ← hc]
        exact List.mem_map.mpr ⟨q, hq, rfl⟩
      rw [hE, hE2, bucketExtend, if_pos hk, hrest]
    · rcases hq : extendEntry cl p with ⟨k1, v1⟩
      have hk1 : k1 = p.1 := by
        have := extendEntry_fst cl p
        rw [hq] at this
        exact this
      have hq2 : extendEntry (bucketExtend cl r fs) p = (k1, v1) := by
        rw [extendEntry_bucketExtend_ne cl r fs p hk, hq]
      rw [hq2, bucketExtend, if_neg (by rw [hk1]; exact hk)]
      rw [ih hN.2]

theorem extendBuckets_append_new (bs cl : List (HashVal × List String))
    (h : HashVal) (fs : List String) (hh : h ∉ bucketKeys bs) :
    extendBuckets bs (cl ++ [(h, fs)]) = extendBuckets bs cl := by
  apply List.map_congr_left
  intro q hq
  refine extendEntry_append_new cl h fs q ?_
  intro hc
  exact hh (hc ▸ List.mem_map.mpr ⟨q, hq, rfl⟩)

theorem mem_allMembers_extendBuckets (bs cl : List (HashVal × List String))
    (n : String) (h : n ∈ allMembers (extendBuckets bs cl)) :
    n ∈ allMembers bs ∨ n ∈ allMembers cl := by
  induction bs with
  | nil => cases h
  | cons p rest ih =>
    rw [extendBuckets_cons, allMembers, List.mem_append] at h
    rcases h with h | h
    · unfold extendEntry at h
      by_cases hp : p.1 ∈ bucketKeys cl
      · rw [if_pos hp] at h
        exact Or.inr (mem_allMembers_of_bucketGet cl p.1 n h)
      · rw [if_neg hp] at h
        refine Or.inl ?_
        rw [show allMembers (p :: rest) = p.2 ++ allMembers rest from
          by cases p; rfl, List.mem_append]
        exact Or.inl h
    · rcases ih h with h1 | h1
      · refine Or.inl ?_
        rw [show allMembers (p :: rest) = p.2 ++ allMembers rest from
          by cases p; rfl, List.mem_append]
        exact Or.inr h1
      · exact Or.inr h1

theorem dupTargets_extendBuckets (bs cl : List (HashVal × List String))
    (n : String) (h : n ∈ dupTargets (extendBuckets bs cl)) :
    n ∈ dupTargets cl ∨ ∃ k gs, (k, gs) ∈ bs ∧ n ∈ gs.drop 1 := by
  induction bs with
  | nil => cases h
  | cons p rest ih =>
    rw [extendBuckets_cons] at h
    rw [show dupTargets (extendEntry cl p :: extendBuckets rest cl) =
      (if (extendEntry cl p).2.length > 1
        then (extendEntry cl p).2.drop 1 else []) ++
        dupTargets (extendBuckets rest cl) from by
      rcases extendEntry cl p with ⟨k1, v1⟩
      rfl, List.mem_append] at h
    rcases h with h | h
    · by_cases hl : (extendEntry cl p).2.length > 1
      · rw [if_pos hl] at h
        unfold extendEntry at h
        by_cases hp : p.1 ∈ bucketKeys cl
        · rw [if_pos hp] at h
          exact Or.inl (mem_dupTargets_of_tail cl p.1 (bucketGet cl p.1) n
            (mem_of_bucketGet cl p.1 hp) h)
        · rw [if_neg hp] at h
          exact Or.inr ⟨p.1, p.2, by cases p; exact List.mem_cons_self _ _, h⟩
      · rw [if_neg hl] at h
        cases h
    · rcases ih h with h1 | ⟨k, gs, hmem, htail⟩
      · exact Or.inl h1
      · exact Or.inr ⟨k, gs, List.mem_cons_of_mem _ hmem, htail⟩

theorem mem_extendBuckets_of_cluster (bs cl : List (HashVal × List String))
    (k : HashVal) (fns : List String) (hN : (bucketKeys cl).Nodup)
    (hc : (k, fns) ∈ cl) (hk : k ∈ bucketKeys bs) :
    (k, fns) ∈ extendBuckets bs cl := by
  have hkc : k ∈ bucketKeys cl := List.mem_map.mpr ⟨(k, fns), hc, rfl⟩
  have hget : bucketGet cl k = fns := bucketGet_of_mem cl k fns hN hc
  have hmem : (k, bucketGet bs k) ∈ bs := mem_of_bucketGet bs k hk
  have : extendEntry cl (k, bucketGet bs k) = (k, fns) := by
    unfold extendEntry
    rw [if_pos hkc, hget]
  exact List.mem_map.mpr ⟨(k, bucketGet bs k), hmem, this⟩

/-! ### The soft loop computes the merged clusters and mutates the reps -/

theorem softLoop_spec (thr : Nat) (todo : List (HashVal × List String)) :
    ∀ done : List (HashVal × List String),
      (bucketKeys (done ++ todo)).Nodup →
      softLoop thr (bucketKeys todo)
          (extendBuckets done (softMerge thr done) ++ todo)
          (softMerge thr done) =
        (extendBuckets (done ++ todo) (softMerge thr (done ++ todo)),
         softMerge thr (done ++ todo)) := by
  induction todo with
  | nil =>
    intro done hN
    simp [bucketKeys_nil, softLoop]
  | cons p rest ih =>
    obtain ⟨h, fs⟩ := p
    intro done hN
    have hN' : (bucketKeys ((done ++ [(h, fs)]) ++ rest)).Nodup := by
      rw [List.append_assoc]
      simpa using hN
    have hNdone : (bucketKeys done).Nodup := by
      rw [bucketKeys_append] at hN
      exact (List.nodup_append.mp hN).1
    have hhdone : h ∉ bucketKeys done := by
      rw [bucketKeys_append] at hN
      intro hc
      exact (List.nodup_append.mp hN).2.2 hc
        (by rw [bucketKeys_cons]; exact List.mem_cons_self _ _)
    have hclkeys : ∀ r, r ∈ bucketKeys (softMerge thr done) →
        r ∈ bucketKeys done :=
      fun r hr => bucketKeys_softMerge_subset thr done r hr
    have happ : done ++ (h, fs) :: rest = (done ++ [(h, fs)]) ++ rest := by
      rw [List.append_assoc]
      rfl
    have hget : bucketGet
        (extendBuckets done (softMerge thr done) ++ (h, fs) :: rest) h =
        fs := by
      rw [bucketGet_append, bucketKeys_extendBuckets, if_neg hhdone,
        bucketGet, if_pos rfl]
    rw [bucketKeys_cons]
    show softLoop thr (h :: bucketKeys rest) _ _ = _
    rw [softLoop]
    rw [hget]
    cases hfr : findRep thr (softMerge thr done) h with
    | some r =>
      simp only [hfr]
      have hrC : r ∈ bucketKeys (softMerge thr done) :=
        findRep_mem thr _ h r hfr
      have hrdone : r ∈ bucketKeys done := hclkeys r hrC
      have hD : softMerge thr (done ++ [(h, fs)]) =
          bucketExtend (softMerge thr done) r fs := by
        rw [softMerge_snoc]
        exact softStep_of_findRep_some thr _ h r fs
          (bucketKeys_softMerge_nodup thr done hNdone) hfr
      have hsing : extendBuckets [(h, fs)]
          (bucketExtend (softMerge thr done) r fs) = [(h, fs)] := by
        have hh : h ∉ bucketKeys (bucketExtend (softMerge thr done) r fs) := by
          rw [bucketKeys_bucketExtend]
          exact fun hc => hhdone (hclkeys h hc)
        rw [extendBuckets_cons, extendBuckets_nil]
        unfold extendEntry
        rw [if_neg hh]
      have hcur : bucketExtend
          (extendBuckets done (softMerge thr done) ++ (h, fs) :: rest) r fs =
          extendBuckets (done ++ [(h, fs)])
            (bucketExtend (softMerge thr done) r fs) ++ rest := by
        rw [bucketExtend_append_left _ _ r fs
          (by rw [bucketKeys_extendBuckets]; exact hrdone)]
        rw [extendBuckets_bucketExtend done _ r fs hNdone hrC]
        rw [extendBuckets_append, hsing, List.append_assoc]
        rfl
      rw [hcur, ← hD, happ]
      exact ih (done ++ [(h, fs)]) hN'
    | none =>
      simp only [hfr]
      have hD : softMerge thr (done ++ [(h, fs)]) =
          softMerge thr done ++ [(h, fs)] := by
        rw [softMerge_snoc]
        exact softStep_of_findRep_none thr _ h fs hfr
      have hhC : h ∉ bucketKeys (softMerge thr done) :=
        fun hc => hhdone (hclkeys h hc)
      have hsing : extendBuckets [(h, fs)]
          (softMerge thr done ++ [(h, fs)]) = [(h, fs)] := by
        rw [extendBuckets_cons, extendBuckets_nil]
        unfold extendEntry
        rw [if_pos (by
          rw [bucketKeys_append, bucketKeys_cons]
          exact List.mem_append_right _ (List.mem_cons_self _ _))]
        rw [bucketGet_append, if_neg hhC, bucketGet, if_pos rfl]
      have hcur : extendBuckets done (softMerge thr done) ++ (h, fs) :: rest =
          extendBuckets (done ++ [(h, fs)])
            (softMerge thr done ++ [(h, fs)]) ++ rest := by
        rw [extendBuckets_append, hsing,
          extendBuckets_append_new done _ h fs hhdone, List.append_assoc]
        rfl
      rw [hcur, ← hD, happ]
      exact ih (done ++ [(h, fs)]) hN'

theorem softLoop_run (thr : Nat) (bs : List (HashVal × List String))
    (hN : (bucketKeys bs).Nodup) :
    softLoop thr (bucketKeys bs) bs [] =
      (extendBuckets bs (softMerge thr bs), softMerge thr bs) := by
  have := softLoop_spec thr bs [] (by simpa using hN)
  simpa using this

/-! ### The buckets and soft clusters of the finished scan -/

theorem addDupAll_uHashes (st : ScanState) (L : List String) :
    (addDupAll st L).uHashes = st.uHashes := by
  induction L generalizing st with
  | nil => rfl
  | cons m rest ih => exact ih _

theorem uHashes_preScan (cfg : Config) (files : List FileInfo) :
    (preScan cfg files).uHashes = none := by
  rw [preScan]
  have haux : ∀ (fs : List FileInfo) (st : ScanState),
      (foldInspect cfg st fs).uHashes = st.uHashes := by
    intro fs
    induction fs with
    | nil => exact fun st => rfl
    | cons g rest ih =>
      intro st
      rw [foldInspect_cons, ih, uHashes_inspectFile]
  rw [haux files initState]
  rfl

theorem clusteredHashes_exact (cfg : Config) (files : List FileInfo)
    (hs : cfg.softHash = false) :
    clusteredHashes cfg files = (preScan cfg files).hashes := by
  unfold clusteredHashes
  rw [hs]
  simp

theorem clusteredHashes_soft (cfg : Config) (files : List FileInfo)
    (hs : cfg.softHash = true) :
    clusteredHashes cfg files =
      extendBuckets (preScan cfg files).hashes
        (softMerge cfg.softHashThreshold (preScan cfg files).hashes) := by
  unfold clusteredHashes
  rw [if_pos hs]
  rw [show ((preScan cfg files).hashes.map Prod.fst) =
    bucketKeys (preScan cfg files).hashes from rfl]
  rw [softLoop_run cfg.softHashThreshold (preScan cfg files).hashes
    (hashKeysNodup_preScan cfg files)]

theorem inspect_uHashes_soft (cfg : Config) (files : List FileInfo)
    (hs : cfg.softHash = true) :
    (inspect cfg files).uHashes =
      some (softMerge cfg.softHashThreshold (preScan cfg files).hashes) := by
  unfold inspect
  rw [assignDuplicates_eq_addDupAll, addDupAll_uHashes]
  simp only [if_pos hs]
  show some ((softLoop cfg.softHashThreshold
    (bucketKeys (preScan cfg files).hashes)
    (preScan cfg files).hashes []).2) = _
  rw [softLoop_run cfg.softHashThreshold (preScan cfg files).hashes
    (hashKeysNodup_preScan cfg files)]

theorem mem_allMembers_clusteredHashes (cfg : Config)
    (files : List FileInfo) (n : String)
    (h : n ∈ allMembers (clusteredHashes cfg files)) :
    n ∈ allMembers (preScan cfg files).hashes := by
  by_cases hs : cfg.softHash
  · rw [clusteredHashes_soft cfg files hs] at h
    rcases mem_allMembers_extendBuckets _ _ n h with h1 | h1
    · exact h1
    · exact (mem_allMembers_softMerge _ _ n).mp h1
  · rw [Bool.not_eq_true] at hs
    rwa [clusteredHashes_exact cfg files hs] at h

/-! ### Field-level view of a file's final offense set -/

/-- The offense set recorded for a name (the empty set when the name has no
entry). -/
def offOf (st : ScanState) (n : String) : OffenseSet :=
  (findOff st.offenses n).getD OffenseSet.empty

theorem offOf_inspect_corrupt (cfg : Config) (files : List FileInfo)
    (n : String) :
    (offOf (inspect cfg files) n).corrupt =
      (offOf (preScan cfg files) n).corrupt := by
  unfold offOf
  rw [findOff_inspect]
  by_cases hmem : n ∈ dupTargets (clusteredHashes cfg files)
  · rw [if_pos hmem]
    simp [OffenseSet.union, Offense.DUPLICATE]
  · rw [if_neg hmem]

theorem offOf_inspect_mode (cfg : Config) (files : List FileInfo)
    (n : String) :
    (offOf (inspect cfg files) n).mode =
      (offOf (preScan cfg files) n).mode := by
  unfold offOf
  rw [findOff_inspect]
  by_cases hmem : n ∈ dupTargets (clusteredHashes cfg files)
  · rw [if_pos hmem]
    simp [OffenseSet.union, Offense.DUPLICATE]
  · rw [if_neg hmem]

theorem offOf_inspect_size (cfg : Config) (files : List FileInfo)
    (n : String) :
    (offOf (inspect cfg files) n).size =
      (offOf (preScan cfg files) n).size := by
  unfold offOf
  rw [findOff_inspect]
  by_cases hmem : n ∈ dupTargets (clusteredHashes cfg files)
  · rw [if_pos hmem]
    simp [OffenseSet.union, Offense.DUPLICATE]
  · rw [if_neg hmem]

theorem offOf_inspect_entropy (cfg : Config) (files : List FileInfo)
    (n : String) :
    (offOf (inspect cfg files) n).entropy =
      (offOf (preScan cfg files) n).entropy := by
  unfold offOf
  rw [findOff_inspect]
  by_cases hmem : n ∈ dupTargets (clusteredHashes cfg files)
  · rw [if_pos hmem]
    simp [OffenseSet.union, Offense.DUPLICATE]
  · rw [if_neg hmem]

theorem offOf_inspect_dup (cfg : Config) (files : List FileInfo)
    (n : String) :
    (offOf (inspect cfg files) n).duplicate = true ↔
      n ∈ dupTargets (clusteredHashes cfg files) := by
  unfold offOf
  rw [findOff_inspect]
  have hpre : ((findOff (preScan cfg files).offenses n).getD
      OffenseSet.empty).duplicate = false := by
    cases hv : findOff (preScan cfg files).offenses n with
    | none => simp [OffenseSet.empty]
    | some s => simpa using noDup_preScan cfg files n s hv
  by_cases hmem : n ∈ dupTargets (clusteredHashes cfg files)
  · rw [if_pos hmem]
    simp [OffenseSet.union, Offense.DUPLICATE, hmem]
  · rw [if_neg hmem]
    simp [hpre, hmem]

theorem offOf_preScan_eq_fileOff (cfg : Config) (files : List FileInfo)
    (f : FileInfo) (hf : f ∈ files)
    (hN : (files.map FileInfo.name).Nodup) :
    offOf (preScan cfg files) f.name =
      (fileOff cfg f).getD OffenseSet.empty := by
  unfold offOf
  rw [findOff_preScan cfg files f hf hN]

/-- A file whose hash stage does not run (or whose load fails) is never a
member of a hash bucket after the scan. -/
theorem not_mem_allMembers (cfg : Config) (files : List FileInfo)
    (f : FileInfo) (hf : f ∈ files)
    (hN : (files.map FileInfo.name).Nodup)
    (hfail : ¬passesToHash cfg f) :
    f.name ∉ allMembers (preScan cfg files).hashes := by
  intro hmem
  obtain ⟨g, hg, hgp, hgn⟩ := mem_allMembers_preScan cfg files f.name hmem
  have : g = f := List.inj_on_of_nodup_map hN hg hf hgn
  subst this
  exact hfail hgp

theorem not_mem_dupTargets (cfg : Config) (files : List FileInfo)
    (f : FileInfo) (hf : f ∈ files)
    (hN : (files.map FileInfo.name).Nodup)
    (hfail : ¬passesToHash cfg f) :
    f.name ∉ dupTargets (clusteredHashes cfg files) := fun hmem =>
  not_mem_allMembers cfg files f hf hN hfail
    (mem_allMembers_clusteredHashes cfg files f.name
      (mem_allMembers_of_dupTargets _ _ hmem))

theorem fileOff_corrupt_excl (cfg : Config) (f : FileInfo)
    (h : ((fileOff cfg f).getD OffenseSet.empty).corrupt = true) :
    ((fileOff cfg f).getD OffenseSet.empty).mode = false ∧
      ((fileOff cfg f).getD OffenseSet.empty).size = false := by
  revert h
  unfold fileOff hashOff entOff
  repeat' split
  all_goals
    simp [Offense.CORRUPT, Offense.MODE, Offense.SIZE, Offense.ENTROPY,
      OffenseSet.union, OffenseSet.empty]

theorem fileOff_entropy_iff (cfg : Config) (f : FileInfo) (e : ℚ)
    (hv : f.verifyOk = true) (hm : f.mode = cfg.mode)
    (hw : f.width = cfg.sideLength) (hh : f.height = cfg.sideLength)
    (hce : cfg.checkEntropy = true) (hE : f.entropyLoad = some e) :
    (((fileOff cfg f).getD OffenseSet.empty).entropy = true ↔
      e < cfg.entropyThreshold) := by
  unfold fileOff hashOff entOff
  by_cases hho : cfg.checkHash = true ∧ cfg.hashName = "dhash" ∧
      f.hashLoad = none <;>
    by_cases hlt : e < cfg.entropyThreshold <;>
      simp [hv, hm, hw, hh, hce, hE, hho, hlt, OffenseSet.union,
        OffenseSet.empty, Offense.CORRUPT, Offense.ENTROPY]

theorem countName_eq_one (l : List String) (h : l.Nodup) (n : String)
    (hn : n ∈ l) : countName n l = 1 := by
  have h1 := countName_nodup l h n
  have h2 := (countName_pos n l).mpr hn
  omega

/-- Offense-set union is idempotent. -/
theorem OffenseSet.union_self (o : OffenseSet) : o.union o = o := by
  cases o
  simp [OffenseSet.union]

theorem updOff_idem (l : List (String × OffenseSet)) (n : String)
    (o : OffenseSet) : updOff (updOff l n o) n o = updOff l n o := by
  induction l with
  | nil => simp [updOff, OffenseSet.union_self]
  | cons p rest ih =>
    obtain ⟨m, s⟩ := p
    by_cases hm : m = n
    · subst hm
      simp [updOff, OffenseSet.union_self_right]
    · simp [updOff, hm, ih]

/-! ### Concrete inputs used by the claim witnesses -/

/-- A configuration with every optional check disabled. -/
def cfgBase : Config := ⟨"RGB", 4, 3, false, false, "dhash", false, 8⟩

/-- A configuration with hash and entropy checks enabled, exact clustering. -/
def c2Cfg : Config := ⟨"RGB", 4, 3, true, true, "dhash", false, 8⟩

/-- A well-formed file whose hash-stage load fails with OSError while its
entropy-stage load succeeds with score 2. -/
def c2File : FileInfo := ⟨"a", true, "RGB", 4, 4, none, some 2⟩

/-- A configuration with hash checking and soft mode enabled, threshold 8. -/
def softCfg : Config := ⟨"RGB", 4, 3, false, true, "dhash", true, 8⟩

/-- A clean file hashing to the all-zero 8-bit array. -/
def softA : FileInfo :=
  ⟨"a", true, "RGB", 4, 4,
   some [false, false, false, false, false, false, false, false], none⟩

/-- A clean file whose hash differs from `softA` in 5 of 8 bits. -/
def softB : FileInfo :=
  ⟨"b", true, "RGB", 4, 4,
   some [true, true, true, true, true, false, false, false], none⟩

/-- A file that fails the structural open/verify step. -/
def c3File : FileInfo := ⟨"x", false, "RGB", 4, 4, none, none⟩

/-- A configuration with only the hash check enabled, exact clustering. -/
def c4Cfg : Config := ⟨"RGB", 4, 3, false, true, "dhash", false, 8⟩

/-- The shared hash of the files A, B, C. -/
def hashH : HashVal := [true, false]

/-- The distinct hash of file D. -/
def hashD : HashVal := [false, true]

/-- File A, first holder of the shared hash. -/
def fA : FileInfo := ⟨"A", true, "RGB", 4, 4, some hashH, none⟩

/-- File B, second holder of the shared hash. -/
def fB : FileInfo := ⟨"B", true, "RGB", 4, 4, some hashH, none⟩

/-- File C, third holder of the shared hash. -/
def fC : FileInfo := ⟨"C", true, "RGB", 4, 4, some hashH, none⟩

/-- File D, holder of a different hash. -/
def fD : FileInfo := ⟨"D", true, "RGB", 4, 4, some hashD, none⟩

/-- A clean file with a recorded hash and entropy score 2. -/
def c6File : FileInfo := ⟨"a", true, "RGB", 4, 4, some [true], some 2⟩

/-- A file that opens fine but reports mode L instead of RGB. -/
def c7File : FileInfo := ⟨"m", true, "L", 4, 4, none, none⟩

/-! ### The claims -/

/-- Claim C1: with soft mode on, the DUPLICATE offenses are determined by
the soft-merged clusters.  Line 122 stores into `soft_hashes` the very
list object held by `self.hashes`, so the in-place `+=` of line 118
extends each representative's bucket to the full cluster member list; the
duplicate loop over `self.hashes` then marks exactly the non-first members
of every soft cluster (leftover merged-away buckets only re-mark names
that are already non-first cluster members).  `softMerge` is the
first-match representative rule of the spec; `uHashes` records the
`soft_hashes` value stored into `self._hashes`. -/
theorem c1_soft_clusters_determine_duplicates (cfg : Config)
    (files : List FileInfo) (hN : (files.map FileInfo.name).Nodup)
    (hSoft : cfg.softHash = true) :
    (inspect cfg files).uHashes =
      some (softMerge cfg.softHashThreshold (preScan cfg files).hashes) ∧
    (∀ k fns, (k, fns) ∈
        softMerge cfg.softHashThreshold (preScan cfg files).hashes →
      (∀ n ∈ fns.drop 1, (offOf (inspect cfg files) n).duplicate = true) ∧
      (∀ n, fns.head? = some n →
        (offOf (inspect cfg files) n).duplicate = false)) ∧
    (∀ n, n ∉ allMembers
        (softMerge cfg.softHashThreshold (preScan cfg files).hashes) →
      (offOf (inspect cfg files) n).duplicate = false) := by
  have hKeysB : (bucketKeys (preScan cfg files).hashes).Nodup :=
    hashKeysNodup_preScan cfg files
  have hMemB : (allMembers (preScan cfg files).hashes).Nodup :=
    allMembers_preScan_nodup cfg files hN
  have hKeysC : (bucketKeys (softMerge cfg.softHashThreshold
      (preScan cfg files).hashes)).Nodup :=
    bucketKeys_softMerge_nodup _ _ hKeysB
  have hMemC : (allMembers (softMerge cfg.softHashThreshold
      (preScan cfg files).hashes)).Nodup :=
    allMembers_softMerge_nodup _ _ hMemB
  have hCl : clusteredHashes cfg files =
      extendBuckets (preScan cfg files).hashes
        (softMerge cfg.softHashThreshold (preScan cfg files).hashes) :=
    clusteredHashes_soft cfg files hSoft
  refine ⟨inspect_uHashes_soft cfg files hSoft, ?_, ?_⟩
  · intro k fns hcl
    constructor
    · intro n hn
      rw [offOf_inspect_dup, hCl]
      have hkB : k ∈ bucketKeys (preScan cfg files).hashes := by
        obtain ⟨gs0, ext, hg0, _⟩ :=
          softMerge_cluster_origin _ _ k fns hcl
        exact List.mem_map.mpr ⟨(k, gs0), hg0, rfl⟩
      exact mem_dupTargets_of_tail _ k fns n
        (mem_extendBuckets_of_cluster _ _ k fns hKeysC hcl hkB) hn
    · intro n hh
      rw [← Bool.not_eq_true, offOf_inspect_dup, hCl]
      intro hdup
      rcases dupTargets_extendBuckets _ _ n hdup with
        hdc | ⟨k2, gs2, hmem2, htail2⟩
      · exact head_not_mem_dupTargets _ hMemC k fns n hcl hh hdc
      · obtain ⟨gs0, ext, hg0, hfns⟩ :=
          softMerge_cluster_origin _ _ k fns hcl
        have hgs0ne : gs0 ≠ [] := nonempty_preScan cfg files k gs0 hg0
        have hh0 : gs0.head? = some n := by
          cases gs0 with
          | nil => exact absurd rfl hgs0ne
          | cons a t =>
            rw [hfns] at hh
            simpa using hh
        exact head_not_mem_dupTargets _ hMemB k gs0 n hg0 hh0
          (mem_dupTargets_of_tail _ k2 gs2 n hmem2 htail2)
  · intro n hnm
    rw [← Bool.not_eq_true, offOf_inspect_dup, hCl]
    intro hdup
    rcases dupTargets_extendBuckets _ _ n hdup with
      hdc | ⟨k2, gs2, hmem2, htail2⟩
    · exact hnm (mem_allMembers_of_dupTargets _ n hdc)
    · exact hnm ((mem_allMembers_softMerge _ _ n).mpr
        (bucket_subset_allMembers _ k2 gs2 hmem2 n
          (List.mem_of_mem_drop htail2)))

/-- Claim C1 witness at two clean files whose hashes are at distance 5,
strictly below the threshold 8: they form one soft cluster and the second
file receives DUPLICATE. -/
theorem c1_soft_clusters_witness :
    (([softA, softB].map FileInfo.name).Nodup ∧ softCfg.softHash = true) ∧
    ((inspect softCfg [softA, softB]).uHashes =
      some (softMerge softCfg.softHashThreshold
        (preScan softCfg [softA, softB]).hashes) ∧
    (∀ k fns, (k, fns) ∈ softMerge softCfg.softHashThreshold
        (preScan softCfg [softA, softB]).hashes →
      (∀ n ∈ fns.drop 1,
        (offOf (inspect softCfg [softA, softB]) n).duplicate = true) ∧
      (∀ n, fns.head? = some n →
        (offOf (inspect softCfg [softA, softB]) n).duplicate = false)) ∧
    (∀ n, n ∉ allMembers (softMerge softCfg.softHashThreshold
        (preScan softCfg [softA, softB]).hashes) →
      (offOf (inspect softCfg [softA, softB]) n).duplicate = false)) :=
  ⟨⟨by decide, rfl⟩,
   c1_soft_clusters_determine_duplicates softCfg [softA, softB] (by decide)
     rfl⟩

/-- Claim C2 (counterexample): a file whose hash-stage load raises OSError
receives CORRUPT, yet the entropy stage still runs for it (line 96 has no
`continue`): with entropy score 2 below the threshold 3 the file also
receives ENTROPY and its score is recorded, contradicting the claim that a
file with CORRUPT never carries ENTROPY information. -/
theorem c2_counterexample :
    (offOf (inspect c2Cfg [c2File]) "a").corrupt = true ∧
    (offOf (inspect c2Cfg [c2File]) "a").entropy = true ∧
    findEnt (inspect c2Cfg [c2File]).entropies "a" = some 2 := by
  decide

/-- Claim C2 (amended): in any scan over distinct filenames, a file whose
offense set contains CORRUPT carries neither MODE nor SIZE (those stages
short-circuit before any CORRUPT source); the ENTROPY exclusion had to be
dropped because a hash-stage load failure does not stop the entropy
stage. -/
theorem c2_corrupt_excludes_mode_and_size (cfg : Config)
    (files : List FileInfo) (n : String)
    (hN : (files.map FileInfo.name).Nodup)
    (hc : (offOf (inspect cfg files) n).corrupt = true) :
    (offOf (inspect cfg files) n).mode = false ∧
      (offOf (inspect cfg files) n).size = false := by
  rw [offOf_inspect_mode, offOf_inspect_size]
  by_cases hex : ∃ f ∈ files, f.name = n
  · obtain ⟨f, hf, rfl⟩ := hex
    rw [offOf_preScan_eq_fileOff cfg files f hf hN]
    apply fileOff_corrupt_excl
    rw [offOf_inspect_corrupt,
      offOf_preScan_eq_fileOff cfg files f hf hN] at hc
    exact hc
  · push_neg at hex
    have h0 : findOff (preScan cfg files).offenses n = none :=
      findOff_preScan_none cfg files n hex
    unfold offOf
    rw [h0]
    simp [OffenseSet.empty]

/-- Claim C2 (amended) witness at the counterexample input. -/
theorem c2_amended_witness :
    ([c2File].map FileInfo.name).Nodup ∧
    (offOf (inspect c2Cfg [c2File]) "a").corrupt = true ∧
    ((offOf (inspect c2Cfg [c2File]) "a").mode = false ∧
      (offOf (inspect c2Cfg [c2File]) "a").size = false) :=
  ⟨by decide, by decide,
   c2_corrupt_excludes_mode_and_size c2Cfg [c2File] "a" (by decide)
     (by decide)⟩

/-- Claim C3: a file that fails the structural open/verify step ends the
pass with offense set exactly {CORRUPT}, and it contributes no hash to any
bucket, so the clustering stage can never add DUPLICATE to it. -/
theorem c3_verify_failure_exactly_corrupt (cfg : Config)
    (files : List FileInfo) (f : FileInfo) (hf : f ∈ files)
    (hN : (files.map FileInfo.name).Nodup) (hv : f.verifyOk = false) :
    findOff (inspect cfg files).offenses f.name = some Offense.CORRUPT ∧
    f.name ∉ allMembers (inspect cfg files).hashes := by
  have hfail : ¬passesToHash cfg f := fun hp => by simp [hp.1] at hv
  have hnd := not_mem_dupTargets cfg files f hf hN hfail
  constructor
  · rw [findOff_inspect, if_neg hnd, findOff_preScan cfg files f hf hN]
    unfold fileOff
    rw [if_pos hv]
  · rw [inspect_hashes]
    intro hm
    exact not_mem_allMembers cfg files f hf hN hfail
      (mem_allMembers_clusteredHashes cfg files f.name hm)

/-- Claim C3 witness. -/
theorem c3_verify_failure_witness :
    c3File ∈ [c3File] ∧ ([c3File].map FileInfo.name).Nodup ∧
    c3File.verifyOk = false ∧
    (findOff (inspect cfgBase [c3File]).offenses c3File.name =
        some Offense.CORRUPT ∧
      c3File.name ∉ allMembers (inspect cfgBase [c3File]).hashes) :=
  ⟨by decide, by decide, by decide,
   c3_verify_failure_exactly_corrupt cfgBase [c3File] c3File (by decide)
     (by decide) (by decide)⟩

/-- Claim C4: in exact mode, within every final hash bucket each member
after the first carries DUPLICATE, the first member does not, and a name in
no bucket (including every member of a singleton bucket, which has an empty
tail) carries no DUPLICATE. -/
theorem c4_exact_duplicates (cfg : Config) (files : List FileInfo)
    (hN : (files.map FileInfo.name).Nodup) (hSoft : cfg.softHash = false) :
    (∀ k fns, (k, fns) ∈ (inspect cfg files).hashes →
      (∀ n ∈ fns.drop 1, (offOf (inspect cfg files) n).duplicate = true) ∧
      (∀ n, fns.head? = some n →
        (offOf (inspect cfg files) n).duplicate = false)) ∧
    (∀ n, n ∉ allMembers (inspect cfg files).hashes →
      (offOf (inspect cfg files) n).duplicate = false) := by
  have hmemnd := allMembers_preScan_nodup cfg files hN
  have hex := clusteredHashes_exact cfg files hSoft
  constructor
  · intro k fns hb
    rw [inspect_hashes, hex] at hb
    constructor
    · intro n hn
      rw [offOf_inspect_dup, hex]
      exact mem_dupTargets_of_tail _ k fns n hb hn
    · intro n hh
      rw [← Bool.not_eq_true, offOf_inspect_dup, hex]
      exact head_not_mem_dupTargets _ hmemnd k fns n hb hh
  · intro n hnm
    rw [inspect_hashes, hex] at hnm
    rw [← Bool.not_eq_true, offOf_inspect_dup, hex]
    exact fun hmem => hnm (mem_allMembers_of_dupTargets _ _ hmem)

/-- Claim C4 witness at the spec's example: A, B, C share a hash, D does
not. -/
theorem c4_exact_duplicates_witness :
    (([fA, fB, fC, fD].map FileInfo.name).Nodup ∧ c4Cfg.softHash = false) ∧
    ((∀ k fns, (k, fns) ∈ (inspect c4Cfg [fA, fB, fC, fD]).hashes →
      (∀ n ∈ fns.drop 1,
        (offOf (inspect c4Cfg [fA, fB, fC, fD]) n).duplicate = true) ∧
      (∀ n, fns.head? = some n →
        (offOf (inspect c4Cfg [fA, fB, fC, fD]) n).duplicate = false)) ∧
    (∀ n, n ∉ allMembers (inspect c4Cfg [fA, fB, fC, fD]).hashes →
      (offOf (inspect c4Cfg [fA, fB, fC, fD]) n).duplicate = false)) :=
  ⟨⟨by decide, rfl⟩,
   c4_exact_duplicates c4Cfg [fA, fB, fC, fD] (by decide) rfl⟩

/-- Claim C5: `sweep` invokes the configured action exactly once per
distinct filename present in the offenses mapping, however many offenses
that file accumulated. -/
theorem c5_sweep_once_per_file (cfg : Config) (files : List FileInfo)
    (n : String) (h : n ∈ (inspect cfg files).offenses.map Prod.fst) :
    countName n (sweep (inspect cfg files)) = 1 := by
  show countName n ((inspect cfg files).offenses.map Prod.fst) = 1
  exact countName_eq_one _ (inspect_keysNodup cfg files) n h

/-- Claim C5 witness: the file carrying both CORRUPT and ENTROPY is swept
exactly once. -/
theorem c5_sweep_once_witness :
    "a" ∈ (inspect c2Cfg [c2File]).offenses.map Prod.fst ∧
    countName "a" (sweep (inspect c2Cfg [c2File])) = 1 :=
  ⟨by decide, c5_sweep_once_per_file c2Cfg [c2File] "a" (by decide)⟩

/-- Claim C6: with the entropy check enabled and a successful entropy-stage
load, a (structurally valid, right-mode, right-size) file is flagged
ENTROPY iff its score is strictly below the threshold, and the score is
recorded either way. -/
theorem c6_entropy_strict_threshold (cfg : Config) (files : List FileInfo)
    (f : FileInfo) (e : ℚ) (hf : f ∈ files)
    (hN : (files.map FileInfo.name).Nodup) (hv : f.verifyOk = true)
    (hm : f.mode = cfg.mode) (hw : f.width = cfg.sideLength)
    (hh : f.height = cfg.sideLength) (hce : cfg.checkEntropy = true)
    (hE : f.entropyLoad = some e) :
    ((offOf (inspect cfg files) f.name).entropy = true ↔
      e < cfg.entropyThreshold) ∧
    findEnt (inspect cfg files).entropies f.name = some e := by
  constructor
  · rw [offOf_inspect_entropy, offOf_preScan_eq_fileOff cfg files f hf hN]
    exact fileOff_entropy_iff cfg f e hv hm hw hh hce hE
  · rw [inspect_entropies, findEnt_preScan cfg files f hf hN]
    unfold fileEnt
    rw [if_pos ⟨hv, hm, by simp [hw, hh], hce⟩, hE]

/-- Claim C6 witness: score 2 against threshold 3. -/
theorem c6_entropy_witness :
    (c6File ∈ [c6File] ∧ ([c6File].map FileInfo.name).Nodup ∧
      c6File.verifyOk = true ∧ c6File.mode = c2Cfg.mode ∧
      c6File.width = c2Cfg.sideLength ∧ c6File.height = c2Cfg.sideLength ∧
      c2Cfg.checkEntropy = true ∧ c6File.entropyLoad = some 2) ∧
    (((offOf (inspect c2Cfg [c6File]) c6File.name).entropy = true ↔
        (2 : ℚ) < c2Cfg.entropyThreshold) ∧
      findEnt (inspect c2Cfg [c6File]).entropies c6File.name = some 2) :=
  ⟨⟨by decide, by decide, rfl, rfl, rfl, rfl, rfl, rfl⟩,
   c6_entropy_strict_threshold c2Cfg [c6File] c6File 2 (by decide)
     (by decide) rfl rfl rfl rfl rfl rfl⟩

/-- Claim C7: a file that opens and verifies but reports a wrong mode gets
exactly the MODE offense, no entropy score, and contributes no hash to
clustering. -/
theorem c7_mode_mismatch_short_circuits (cfg : Config)
    (files : List FileInfo) (f : FileInfo) (hf : f ∈ files)
    (hN : (files.map FileInfo.name).Nodup) (hv : f.verifyOk = true)
    (hm : f.mode ≠ cfg.mode) :
    findOff (inspect cfg files).offenses f.name = some Offense.MODE ∧
    findEnt (inspect cfg files).entropies f.name = none ∧
    f.name ∉ allMembers (inspect cfg files).hashes := by
  have hfail : ¬passesToHash cfg f := fun hp => hm hp.2.1
  have hnd := not_mem_dupTargets cfg files f hf hN hfail
  refine ⟨?_, ?_, ?_⟩
  · rw [findOff_inspect, if_neg hnd, findOff_preScan cfg files f hf hN]
    unfold fileOff
    rw [if_neg (by simp [hv]), if_pos hm]
  · rw [inspect_entropies, findEnt_preScan cfg files f hf hN]
    unfold fileEnt
    rw [if_neg fun hcon => hm hcon.2.1]
  · rw [inspect_hashes]
    intro hm
    exact not_mem_allMembers cfg files f hf hN hfail
      (mem_allMembers_clusteredHashes cfg files f.name hm)

/-- Claim C7 witness: an L-mode file against an RGB configuration. -/
theorem c7_mode_mismatch_witness :
    (c7File ∈ [c7File] ∧ ([c7File].map FileInfo.name).Nodup ∧
      c7File.verifyOk = true ∧ c7File.mode ≠ cfgBase.mode) ∧
    (findOff (inspect cfgBase [c7File]).offenses c7File.name =
        some Offense.MODE ∧
      findEnt (inspect cfgBase [c7File]).entropies c7File.name = none ∧
      c7File.name ∉ allMembers (inspect cfgBase [c7File]).hashes) :=
  ⟨⟨by decide, by decide, rfl, by decide⟩,
   c7_mode_mismatch_short_circuits cfgBase [c7File] c7File (by decide)
     (by decide) rfl (by decide)⟩

/-- Claim C8: `_add_offense` computes the union into the file's entry,
is idempotent, preserves offenses already present (the entry becomes the
union of the old entry and the new flags), leaves every other file's entry
alone and changes nothing else in the state. -/
theorem c8_add_offense_union_idempotent (st : ScanState) (n : String)
    (o : OffenseSet) :
    addOffense (addOffense st n o) n o = addOffense st n o ∧
    findOff (addOffense st n o).offenses n =
      some (((findOff st.offenses n).getD OffenseSet.empty).union o) ∧
    (∀ m, m ≠ n →
      findOff (addOffense st n o).offenses m = findOff st.offenses m) ∧
    (addOffense st n o).hashes = st.hashes ∧
    (addOffense st n o).entropies = st.entropies ∧
    (addOffense st n o).nFilesInspected = st.nFilesInspected ∧
    (addOffense st n o).uHashes = st.uHashes := by
  refine ⟨?_, ?_, ?_, rfl, rfl, rfl, rfl⟩
  · cases st
    simp [addOffense, updOff_idem]
  · exact findOff_updOff_self st.offenses n o
  · intro m hm
    exact findOff_updOff_ne st.offenses n m o hm

/-- Claim C8 witness at a concrete state, name and flag. -/
theorem c8_add_offense_witness :
    addOffense (addOffense initState "a" Offense.CORRUPT) "a"
        Offense.CORRUPT =
      addOffense initState "a" Offense.CORRUPT ∧
    findOff (addOffense initState "a" Offense.CORRUPT).offenses "a" =
      some (((findOff initState.offenses "a").getD
        OffenseSet.empty).union Offense.CORRUPT) ∧
    (∀ m, m ≠ "a" →
      findOff (addOffense initState "a" Offense.CORRUPT).offenses m =
        findOff initState.offenses m) ∧
    (addOffense initState "a" Offense.CORRUPT).hashes = initState.hashes ∧
    (addOffense initState "a" Offense.CORRUPT).entropies =
      initState.entropies ∧
    (addOffense initState "a" Offense.CORRUPT).nFilesInspected =
      initState.nFilesInspected ∧
    (addOffense initState "a" Offense.CORRUPT).uHashes =
      initState.uHashes :=
  c8_add_offense_union_idempotent initState "a" Offense.CORRUPT

/-- Claim C9: the scan is a pure function of its inputs: identical
directory listings with identical per-file outcomes produce identical final
states, hence identical filename-to-offense-set mappings and identical
sweep invocation sequences. -/
theorem c9_scan_deterministic (cfg : Config)
    (files₁ files₂ : List FileInfo) (h : files₁ = files₂) :
    inspect cfg files₁ = inspect cfg files₂ ∧
    sweep (inspect cfg files₁) = sweep (inspect cfg files₂) := by
  rw [h]
  exact ⟨rfl, rfl⟩

/-- Claim C9 witness. -/
theorem c9_scan_deterministic_witness :
    inspect c2Cfg [c2File] = inspect c2Cfg [c2File] ∧
    sweep (inspect c2Cfg [c2File]) = sweep (inspect c2Cfg [c2File]) :=
  c9_scan_deterministic c2Cfg [c2File] [c2File] rfl

/-- Claim C10: `log` divides the offending-file count by the number of
inspected files with no zero guard: the percentage is defined whenever at
least one file was listed, and the computation fails (ZeroDivisionError,
modelled as `none`) when the directory listing is empty. -/
theorem c10_log_zero_division (cfg : Config) (files : List FileInfo) :
    (files.length ≠ 0 →
      logPercent (inspect cfg files) =
        some (((inspect cfg files).offenses.length : ℚ) /
          (files.length : ℚ) * 100)) ∧
    (files.length = 0 → logPercent (inspect cfg files) = none) := by
  unfold logPercent
  rw [inspect_nFiles]
  constructor
  · intro h
    rw [if_neg h]
  · intro h
    rw [if_pos h]

/-- Claim C10 witness: one offending file out of one gives 100 percent; an
empty listing gives the failure value. -/
theorem c10_log_zero_division_witness :
    logPercent (inspect c2Cfg [c2File]) = some 100 ∧
    logPercent (inspect c2Cfg []) = none := by
  constructor
  · rw [(c10_log_zero_division c2Cfg [c2File]).1 (by decide)]
    have hlen : (inspect c2Cfg [c2File]).offenses.length = 1 := by decide
    rw [hlen]
    norm_num
  · exact (c10_log_zero_division c2Cfg []).2 rfl

end CheckImages
